import Mathlib

/-!
# mshkbot: weekly recurrence engine and schedule model

A shallow embedding of `internal/cron/scheduler.go`, `internal/cron/schedule_manager.go`
and the schedule handlers of `internal/handlers/admingroup/admingroup.go`.

Conventions of the embedding:

* Go `int` and `time.Duration` values are Lean `Int`s; every quantity that occurs stays far
  inside the 64-bit range, and `Time.Sub` keeps Go's saturation explicitly.
* The `ScheduleManager` is a value; every method takes the manager and returns the new one
  next to its Go result.  The mutex is not modelled: each method body is one atomic step.
* `[]*ScheduledEvent` is a list of event values; a pointer into the slice is a position.
* Calls on the bot are collected as a list of `BotCall` values; what the bot answers, where
  the code branches on it, is an argument.
* A run-time panic is the result `none`.
-/

namespace mshkbot

/-! ## Go standard library: package `time` (the operations `timeUntilNext` uses) -/

namespace time

/-! A `time.Duration` is a count of nanoseconds, a `time.Weekday` counts from `Sunday = 0` to
`Saturday = 6`, and a `time.Month` from `January = 1` to `December = 12`: all three are
`Int`s here. -/

def Nanosecond : Int := 1
def Microsecond : Int := 1000 * Nanosecond
def Millisecond : Int := 1000 * Microsecond
def Second : Int := 1000 * Millisecond
def Minute : Int := 60 * Second
def Hour : Int := 60 * Minute

def minDuration : Int := -(2 ^ 63)
def maxDuration : Int := 2 ^ 63 - 1

def Sunday : Int := 0
def Monday : Int := 1
def Tuesday : Int := 2
def Wednesday : Int := 3
def Thursday : Int := 4
def Friday : Int := 5
def Saturday : Int := 6

def March : Int := 3

/-- A `*time.Location` with a single zone, as made by `time.FixedZone`:
`offset` is in seconds east of UTC. -/
structure Location where
  name : String
  offset : Int
  deriving DecidableEq, Repr

def FixedZone (name : String) (offset : Int) : Location := ⟨name, offset⟩

/-- A `time.Time`: an instant, as nanoseconds since the Unix epoch, with the location used
to present it. -/
structure Time where
  unixNano : Int
  loc : Location
  deriving DecidableEq, Repr

def secondsPerMinute : Int := 60
def secondsPerHour : Int := 60 * secondsPerMinute
def secondsPerDay : Int := 24 * secondsPerHour
def secondsPerWeek : Int := 7 * secondsPerDay
def daysPer400Years : Int := 365 * 400 + 97
def daysPer100Years : Int := 365 * 100 + 24
def daysPer4Years : Int := 365 * 4 + 1

/-- The year of the absolute epoch (a Monday, January 1). -/
def absoluteZeroYear : Int := -292277022399

/-- The constant `unixToInternal + internalToAbsolute`: seconds from the absolute epoch to the
Unix epoch. -/
def unixToAbsolute : Int := 62135596800 + 9223371966579724800

def isLeap (year : Int) : Bool :=
  year % 4 == 0 && (year % 100 != 0 || year % 400 == 0)

/-- The table `daysBefore`: days in a non-leap year before month `m + 1`. -/
def daysBefore : List Int := [0, 31, 59, 90, 120, 151, 181, 212, 243, 273, 304, 334, 365]

/-- Days from the absolute epoch to January 1 of `year`. -/
def daysSinceEpoch (year : Int) : Int :=
  let y := year - absoluteZeroYear
  let n := y / 400
  let y := y - 400 * n
  let d := daysPer400Years * n
  let n := y / 100
  let y := y - 100 * n
  let d := d + daysPer100Years * n
  let n := y / 4
  let y := y - 4 * n
  let d := d + daysPer4Years * n
  d + 365 * y

/-- The function `absDate` with `full = false`: the year and the zero-based day of the year
of a count of seconds since the absolute epoch. -/
def absYearDay (abs : Int) : Int × Int :=
  let d := abs / secondsPerDay
  let n := d / daysPer400Years
  let y := 400 * n
  let d := d - daysPer400Years * n
  let n := d / daysPer100Years
  let n := n - n / 4
  let y := y + 100 * n
  let d := d - daysPer100Years * n
  let n := d / daysPer4Years
  let y := y + 4 * n
  let d := d - daysPer4Years * n
  let n := d / 365
  let n := n - n / 4
  let y := y + n
  let d := d - 365 * n
  (y + absoluteZeroYear, d)

/-- The function `absDate` with `full = true`: year, month and day of the month of a count
of seconds since the absolute epoch. -/
def absDate (abs : Int) : Int × Int × Int :=
  let (year, yday) := absYearDay abs
  let day := yday
  if isLeap year && day == 31 + 29 - 1 then (year, 2, 29) else
  let day := if isLeap year && day > 31 + 29 - 1 then day - 1 else day
  let month := day / 31
  let e := daysBefore.getD (month + 1).toNat 0
  if day ≥ e then (year, month + 2, day - e + 1)
  else (year, month + 1, day - daysBefore.getD month.toNat 0 + 1)

/-- The function `norm`: carries `lo` into `hi` so that `0 ≤ lo < base`. -/
def norm (hi lo base : Int) : Int × Int :=
  let p : Int × Int :=
    if lo < 0 then
      let n := (-lo - 1) / base + 1
      (hi - n, lo + n * base)
    else (hi, lo)
  if p.2 ≥ base then
    let n := p.2 / base
    (p.1 + n, p.2 - n * base)
  else p

namespace Time

/-- The method `In`: the same instant, presented in `loc`. -/
def In (t : Time) (loc : Location) : Time := { t with loc := loc }

def unixSec (t : Time) : Int := t.unixNano / 1000000000

def nsec (t : Time) : Int := t.unixNano % 1000000000

/-- Seconds since the absolute epoch, on the wall clock of the location. -/
def abs (t : Time) : Int := t.unixSec + t.loc.offset + unixToAbsolute

def Year (t : Time) : Int := (absDate t.abs).1

def Month (t : Time) : Int := (absDate t.abs).2.1

def Day (t : Time) : Int := (absDate t.abs).2.2

/-- The method `Weekday`; the absolute epoch was a Monday. -/
def Weekday (t : Time) : Int :=
  let sec := (t.abs + Monday * secondsPerDay) % secondsPerWeek
  sec / secondsPerDay

/-- The method `Clock`: hour, minute and second within the day. -/
def Clock (t : Time) : Int × Int × Int :=
  let sec := t.abs % secondsPerDay
  let hour := sec / secondsPerHour
  let sec := sec - hour * secondsPerHour
  let min := sec / secondsPerMinute
  (hour, min, sec - min * secondsPerMinute)

def Before (t u : Time) : Bool := decide (t.unixNano < u.unixNano)

def Equal (t u : Time) : Bool := decide (t.unixNano = u.unixNano)

/-- The method `Sub`: the duration `t - u`, saturated to the range of a `Duration`. -/
def Sub (t u : Time) : Int :=
  let d := t.unixNano - u.unixNano
  if d > maxDuration then maxDuration else if d < minDuration then minDuration else d

def Add (t : Time) (d : Int) : Time := { t with unixNano := t.unixNano + d }

end Time

/-- The function `time.Date`, for a location with a single zone: the arguments may be outside
their usual ranges and are normalised. -/
def Date (year : Int) (month : Int) (day hour min sec nsec : Int) (loc : Location) : Time :=
  let ym := norm year (month - 1) 12
  let year := ym.1
  let month := ym.2 + 1
  let sn := norm sec nsec 1000000000
  let nsec := sn.2
  let ms := norm min sn.1 60
  let sec := ms.2
  let hm := norm hour ms.1 60
  let min := hm.2
  let dh := norm day hm.1 24
  let hour := dh.2
  let day := dh.1
  let d := daysSinceEpoch year
  let d := d + daysBefore.getD (month - 1).toNat 0
  let d := if isLeap year && month ≥ March then d + 1 else d
  let d := d + (day - 1)
  let abs := d * secondsPerDay
  let abs := abs + (hour * secondsPerHour + min * secondsPerMinute + sec)
  let unix := abs - unixToAbsolute
  let unix := unix - loc.offset
  ⟨unix * 1000000000 + nsec, loc⟩

/-- The method `AddDate`. -/
def Time.AddDate (t : Time) (years months days : Int) : Time :=
  let clock := t.Clock
  Date (t.Year + years) (t.Month + months) (t.Day + days) clock.1 clock.2.1 clock.2.2 t.nsec t.loc

end time

/-! ## Go standard library: `strings.TrimSpace`, `strconv.Atoi` and the `fmt` verbs in use

Strings are sequences of Unicode characters: every string the bot handles is valid UTF-8, so
`[]rune(s)` is `s.data` and the ASCII bytes of `s` are its ASCII characters. -/

namespace unicode

/-- The predicate `unicode.IsSpace`. -/
def IsSpace (r : Char) : Bool :=
  let c := r.toNat
  c == 0x09 || c == 0x0A || c == 0x0B || c == 0x0C || c == 0x0D || c == 0x20 ||
  c == 0x85 || c == 0xA0 || c == 0x1680 || (0x2000 ≤ c && c ≤ 0x200A) ||
  c == 0x2028 || c == 0x2029 || c == 0x202F || c == 0x205F || c == 0x3000

end unicode

namespace strings

/-- The function `strings.TrimSpace`: `s` without its leading and trailing white space. -/
def TrimSpace (s : String) : String :=
  String.mk ((s.data.dropWhile unicode.IsSpace).reverse.dropWhile unicode.IsSpace).reverse

/-- The test `strings.HasPrefix`, on characters. -/
def HasPrefix : List Char → List Char → Bool
  | _, [] => true
  | [], _ :: _ => false
  | c :: cs, p :: ps => c == p && HasPrefix cs ps

/-- The scan of `strings.Split` for a non-empty separator: `skip` counts the characters of a
separator just found that are still to be passed over, `piece` is the current piece, last
character first. -/
def splitScan (sep : List Char) : List Char → Nat → List Char → List (List Char)
  | [], _, piece => [piece.reverse]
  | _ :: cs, skip + 1, piece => splitScan sep cs skip piece
  | c :: cs, 0, piece =>
    if HasPrefix (c :: cs) sep then piece.reverse :: splitScan sep cs (sep.length - 1) []
    else splitScan sep cs 0 (c :: piece)

/-- The function `strings.Split`: the pieces of `s` between the occurrences of `sep`; with an
empty separator, the characters of `s`. -/
def Split (s sep : String) : List String :=
  if sep.data.isEmpty then s.data.map (fun c => String.mk [c])
  else (splitScan sep.data s.data 0 []).map String.mk

end strings

namespace strconv

/-- The digit loop of `Atoi`/`ParseUint` in base 10: `none` at the first character that is
not an ASCII digit. -/
def parseDigits : List Char → Nat → Option Nat
  | [], n => some n
  | ch :: rest, n =>
    if 0x30 ≤ ch.toNat ∧ ch.toNat ≤ 0x39 then parseDigits rest (n * 10 + (ch.toNat - 0x30))
    else none

/-- The function `strconv.Atoi` on a 64-bit platform; `none` stands for a non-nil error
(`ErrSyntax` for an empty string, a lone sign or a non-digit, `ErrRange` outside `int`). -/
def Atoi (s : String) : Option Int :=
  match s.data with
  | [] => none
  | c :: cs =>
    let neg := c.toNat == 0x2D
    let digits := if c.toNat == 0x2D || c.toNat == 0x2B then cs else c :: cs
    if digits.isEmpty then none else
    match parseDigits digits 0 with
    | none => none
    | some un =>
      let n : Int := if neg then -(un : Int) else (un : Int)
      if n < -(2 ^ 63) ∨ n > 2 ^ 63 - 1 then none else some n

end strconv

namespace fmt

/-- The verb `%d` applied to an `int`. -/
def d (n : Int) : String := toString n

/-- The verb `%02d` applied to an `int`: padded with zeros to width two, the sign counting
towards the width. -/
def d02 (n : Int) : String :=
  if 0 ≤ n ∧ n < 10 then "0" ++ toString n else toString n

end fmt

/-! ## Package `cron`: the schedule model (`schedule_manager.go`) -/

namespace cron

structure ScheduledEvent where
  ID : String
  Day : String
  Weekday : Int
  StartHour : Int
  EndHour : Int
  Limit : Int
  LichessLimit : Int
  ChesscomLimit : Int
  Intro : String
  Deleted : Bool
  deriving DecidableEq, Repr

structure WeekSchedule where
  Events : List ScheduledEvent
  Approved : Bool
  MessageID : Int
  EditingEventID : String
  EditingField : String
  deriving DecidableEq, Repr

/-- The manager: `current` is `none` for the nil pointer. -/
structure ScheduleManager where
  current : Option WeekSchedule
  deriving DecidableEq, Repr

def NewScheduleManager : ScheduleManager := { current := none }

/-- A value of `tgbotapi.InlineKeyboardMarkup`: rows of buttons, each a label and its
callback data. -/
abbrev InlineKeyboardMarkup := List (List (String × String))

/-- The dynamic type of an `interface{}` argument: an `int`, a `string`, or anything else. -/
inductive Value where
  | int (v : Int)
  | string (s : String)
  | other
  deriving DecidableEq, Repr

/-- The errors `UpdateEventField` builds with `fmt.Errorf`, by the branch that builds them. -/
inductive UpdateError where
  | Uninitialized
  | EventNotFound (eventID : String)
  | InvalidValue (field : String)
  | UnknownField (field : String)
  deriving DecidableEq, Repr

/-- The text of the error. -/
def UpdateError.Error : UpdateError → String
  | .Uninitialized => "no schedule initialized"
  | .EventNotFound eventID => "event not found: " ++ eventID
  | .InvalidValue field => "invalid value type for " ++ field
  | .UnknownField field => "unknown field: " ++ field

/-- The loop `for _, e := range events { if e.ID == eventID { ... } }`: the position of the
first event with that ID, where the loop body runs and leaves the loop. -/
def eventIndex (eventID : String) : List ScheduledEvent → Option Nat
  | [] => none
  | e :: es => if e.ID = eventID then some 0 else (eventIndex eventID es).map (· + 1)

/-- The loop of `GetEventForWeekday`. -/
def eventForWeekday (weekday : Int) : List ScheduledEvent → Option ScheduledEvent
  | [] => none
  | e :: es => if e.Weekday = weekday ∧ ¬ e.Deleted then some e else eventForWeekday weekday es

/-- The loop of `GetActiveEvents`: `active` is the slice built so far. -/
def activeEvents (active : List ScheduledEvent) : List ScheduledEvent → List ScheduledEvent
  | [] => active
  | e :: es => if ¬ e.Deleted then activeEvents (active ++ [e]) es else activeEvents active es

/-- The function `truncateString`; `none` is the run-time panic of the slice expression
`runes[:maxLen-3]` with a negative bound. -/
def truncateString (s : String) (maxLen : Int) : Option String :=
  let runes := s.data
  if (runes.length : Int) ≤ maxLen then some s
  else if maxLen - 3 < 0 then none
  else some (String.mk (runes.take (maxLen - 3).toNat) ++ "...")

def GetScheduleMainKeyboard : InlineKeyboardMarkup :=
  [ [("✅ всё верно", "schedule:approve")],
    [("✏️ редактировать", "schedule:edit"), ("🗑 удалить", "schedule:delete")] ]

def GetScheduleSelectEventKeyboard (action : String) : InlineKeyboardMarkup :=
  [ [("понедельник", "schedule:" ++ action ++ ":monday"),
     ("вторник", "schedule:" ++ action ++ ":tuesday"),
     ("среда", "schedule:" ++ action ++ ":wednesday")],
    [("⬅️ назад", "schedule:back")] ]

def GetScheduleEditFieldKeyboard (eventID : String) : InlineKeyboardMarkup :=
  [ [("лимит участников", "schedule:field:" ++ eventID ++ ":limit")],
    [("лимит lichess", "schedule:field:" ++ eventID ++ ":lichess_limit"),
     ("лимит chesscom", "schedule:field:" ++ eventID ++ ":chesscom_limit")],
    [("текст объявления", "schedule:field:" ++ eventID ++ ":intro")],
    [("⬅️ назад", "schedule:back")] ]

def GetScheduleBackKeyboard : InlineKeyboardMarkup :=
  [ [("⬅️ назад", "schedule:back")] ]

namespace ScheduleManager

def GetDefaultEvents (_sm : ScheduleManager) : List ScheduledEvent :=
  [ { ID := "monday"
      Day := "понедельник"
      Weekday := time.Monday
      StartHour := 12
      EndHour := 21
      Limit := 32
      LichessLimit := 0
      ChesscomLimit := 0
      Intro := "запись на южный турнир открыта! нажмите /checkin чтобы записаться"
      Deleted := false },
    { ID := "tuesday"
      Day := "вторник"
      Weekday := time.Tuesday
      StartHour := 12
      EndHour := 21
      Limit := 24
      LichessLimit := 1600
      ChesscomLimit := 1201
      Intro := "открыта запись на зелёный турнир. нажмите /checkin чтобы записаться"
      Deleted := false },
    { ID := "wednesday"
      Day := "среда"
      Weekday := time.Wednesday
      StartHour := 12
      EndHour := 21
      Limit := 24
      LichessLimit := 0
      ChesscomLimit := 0
      Intro := "начали запись на турнир в ладье. нажмите /checkin чтобы записаться"
      Deleted := false } ]

def InitWeekSchedule (sm : ScheduleManager) : ScheduleManager :=
  { current := some
      { Events := sm.GetDefaultEvents
        Approved := false
        MessageID := 0
        EditingEventID := ""
        EditingField := "" } }

def GetCurrentSchedule (sm : ScheduleManager) : Option WeekSchedule := sm.current

def IsApproved (sm : ScheduleManager) : Bool :=
  match sm.current with
  | none => false
  | some cur => cur.Approved

def SetApproved (sm : ScheduleManager) (approved : Bool) : ScheduleManager :=
  match sm.current with
  | some cur => { current := some { cur with Approved := approved } }
  | none => sm

def SetMessageID (sm : ScheduleManager) (messageID : Int) : ScheduleManager :=
  match sm.current with
  | some cur => { current := some { cur with MessageID := messageID } }
  | none => sm

def GetMessageID (sm : ScheduleManager) : Int :=
  match sm.current with
  | none => 0
  | some cur => cur.MessageID

def DeleteEvent (sm : ScheduleManager) (eventID : String) : Bool × ScheduleManager :=
  match sm.current with
  | none => (false, sm)
  | some cur =>
    match eventIndex eventID cur.Events with
    | some i =>
      let events := cur.Events.modify (fun e => { e with Deleted := true }) i
      (true, { current := some { cur with Events := events } })
    | none => (false, sm)

def RestoreEvent (sm : ScheduleManager) (eventID : String) : Bool × ScheduleManager :=
  match sm.current with
  | none => (false, sm)
  | some cur =>
    match eventIndex eventID cur.Events with
    | some i =>
      let events := cur.Events.modify (fun e => { e with Deleted := false }) i
      (true, { current := some { cur with Events := events } })
    | none => (false, sm)

def GetEvent (sm : ScheduleManager) (eventID : String) : Option ScheduledEvent :=
  match sm.current with
  | none => none
  | some cur =>
    match eventIndex eventID cur.Events with
    | some i => cur.Events[i]?
    | none => none

def SetEditingEvent (sm : ScheduleManager) (eventID field : String) : ScheduleManager :=
  match sm.current with
  | some cur => { current := some { cur with EditingEventID := eventID, EditingField := field } }
  | none => sm

def GetEditingState (sm : ScheduleManager) : String × String :=
  match sm.current with
  | none => ("", "")
  | some cur => (cur.EditingEventID, cur.EditingField)

def ClearEditingState (sm : ScheduleManager) : ScheduleManager :=
  match sm.current with
  | some cur => { current := some { cur with EditingEventID := "", EditingField := "" } }
  | none => sm

/-- The method `UpdateEventField`: the returned error (`none` for nil) and the manager
afterwards. -/
def UpdateEventField (sm : ScheduleManager) (eventID field : String) (value : Value) :
    Option UpdateError × ScheduleManager :=
  match sm.current with
  | none => (some .Uninitialized, sm)
  | some cur =>
    match eventIndex eventID cur.Events with
    | none => (some (.EventNotFound eventID), sm)
    | some i =>
      let assign (f : ScheduledEvent → ScheduledEvent) : Option UpdateError × ScheduleManager :=
        (none, { current := some { cur with Events := cur.Events.modify f i } })
      if field = "limit" then
        match value with
        | .int v => assign (fun event => { event with Limit := v })
        | _ => (some (.InvalidValue "limit"), sm)
      else if field = "lichess_limit" then
        match value with
        | .int v => assign (fun event => { event with LichessLimit := v })
        | _ => (some (.InvalidValue "lichess_limit"), sm)
      else if field = "chesscom_limit" then
        match value with
        | .int v => assign (fun event => { event with ChesscomLimit := v })
        | _ => (some (.InvalidValue "chesscom_limit"), sm)
      else if field = "intro" then
        match value with
        | .string v => assign (fun event => { event with Intro := v })
        | _ => (some (.InvalidValue "intro"), sm)
      else (some (.UnknownField field), sm)

def GetActiveEvents (sm : ScheduleManager) : List ScheduledEvent :=
  match sm.current with
  | none => []
  | some cur => activeEvents [] cur.Events

def GetEventForWeekday (sm : ScheduleManager) (weekday : Int) : Option ScheduledEvent :=
  match sm.current with
  | none => none
  | some cur => if ¬ cur.Approved then none else eventForWeekday weekday cur.Events

/-- One pass of the loop of `FormatScheduleMessage`: the text for event `e` added to `msg`. -/
def formatEvent (msg : String) (e : ScheduledEvent) : String :=
  let statusIcon := if e.Deleted then "❌" else "✅"
  let msg := msg ++ (statusIcon ++ " *" ++ e.Day ++ "* (" ++ fmt.d02 e.StartHour ++ ":00 - "
    ++ fmt.d02 e.EndHour ++ ":00)\n")
  let msg := msg ++ ("   лимит: " ++ fmt.d e.Limit)
  let msg :=
    if e.LichessLimit > 0 ∨ e.ChesscomLimit > 0 then
      msg ++ (" | lichess<" ++ fmt.d e.LichessLimit ++ ", chesscom<" ++ fmt.d e.ChesscomLimit)
    else msg
  let msg := msg ++ "\n"
  msg ++ ("   текст: _" ++ (truncateString e.Intro 50).getD "" ++ "_\n\n")

def FormatScheduleMessage (sm : ScheduleManager) : String :=
  match sm.current with
  | none => "расписание не инициализировано"
  | some cur =>
    let msg := "📅 *расписание турниров на неделю*\n\n"
    let msg := cur.Events.foldl formatEvent msg
    if cur.Approved then msg ++ "✅ *расписание подтверждено*"
    else msg ++ "⚠️ *ожидает подтверждения*\nтурниры не будут запущены, пока не нажмёте \"всё верно\""

/-- The method `GetDeleteEventKeyboard`; it reads `sm.current.Events` without a nil check, so
`none` is the nil-pointer panic when no plan is stored. -/
def GetDeleteEventKeyboard (sm : ScheduleManager) : Option InlineKeyboardMarkup :=
  match sm.current with
  | none => none
  | some cur =>
    let buttons := cur.Events.map (fun e =>
      let label := if e.Deleted then "🔄 " ++ e.Day ++ " (восстановить)" else "🗑 " ++ e.Day
      (label, "schedule:delete_event:" ++ e.ID))
    some [buttons, [("⬅️ назад", "schedule:back")]]

end ScheduleManager

/-- A call of one of the mutating methods of the manager, as data, to speak of sequences of
calls. -/
inductive Op where
  | SetApproved (approved : Bool)
  | SetMessageID (messageID : Int)
  | DeleteEvent (eventID : String)
  | RestoreEvent (eventID : String)
  | SetEditingEvent (eventID field : String)
  | ClearEditingState
  | UpdateEventField (eventID field : String) (value : Value)
  deriving DecidableEq, Repr

/-- The manager after the call. -/
def Op.apply (sm : ScheduleManager) : Op → ScheduleManager
  | .SetApproved approved => sm.SetApproved approved
  | .SetMessageID messageID => sm.SetMessageID messageID
  | .DeleteEvent eventID => (sm.DeleteEvent eventID).2
  | .RestoreEvent eventID => (sm.RestoreEvent eventID).2
  | .SetEditingEvent eventID field => sm.SetEditingEvent eventID field
  | .ClearEditingState => sm.ClearEditingState
  | .UpdateEventField eventID field value => (sm.UpdateEventField eventID field value).2

/-- The manager after a sequence of calls, first call first. -/
def runOps (sm : ScheduleManager) (ops : List Op) : ScheduleManager :=
  ops.foldl Op.apply sm

/-- The constraint of the data model on the numeric fields: in every event of the plan, if
there is one, the participant limit and both rating ceilings are non-negative. -/
def NonnegLimits (sm : ScheduleManager) : Prop :=
  ∀ cur, sm.current = some cur →
    ∀ e ∈ cur.Events, 0 ≤ e.Limit ∧ 0 ≤ e.LichessLimit ∧ 0 ≤ e.ChesscomLimit

end cron

/-! ## Package `bot`: the calls the scheduler and the handlers make -/

namespace bot

/-- A call on the bot or on its tournament. -/
inductive BotCall where
  | SendMessage (chatID : Int) (text : String)
  | EditMessageWithButtons (chatID messageID : Int) (text : String)
      (keyboard : cron.InlineKeyboardMarkup)
  | GiveReaction (chatID messageID : Int) (emoji : String)
  | EditMessage (chatID messageID : Int) (text : String)
  | AnswerCallback (callbackQueryID : String)
  | SendMessageAndGetID (chatID : Int) (text : String)
  | SendMessageWithButtonsAndGetID (chatID : Int) (text : String)
      (keyboard : cron.InlineKeyboardMarkup)
  | PinMessage (chatID messageID : Int)
  | UnpinMessage (chatID messageID : Int)
  | CreateTournament (limit lichessRatingLimit chesscomRatingLimit : Int)
      (announcementIntro : String)
  | SetAnnouncementMessageID (messageID : Int)
  | RemoveTournament
  deriving DecidableEq, Repr

/-- What the scheduler reads from the bot: the tournament metadata, and the results of the
two calls it branches on (whether `CreateTournament` returns nil, and the message ID
`SendMessageAndGetID` returns, `none` for an error). -/
structure Bot where
  TournamentExists : Bool
  AnnouncementMessageID : Int
  createTournamentOK : Bool
  sentMessageID : Option Int
  deriving DecidableEq, Repr

end bot

namespace cron

open bot

/-! ## Package `cron`: the recurrence engine (`scheduler.go`) -/

/-- The scheduler.  The bot is a collaborator passed to the methods that call it; of the
channel `stopChan`, which is only ever closed, the state is whether it is closed. -/
structure Scheduler where
  mainGroupID : Int
  adminGroupID : Int
  stopChanClosed : Bool
  timezone : time.Location
  ScheduleManager : ScheduleManager

def New (mainGroupID adminGroupID : Int) : Scheduler :=
  let moscowTZ := time.FixedZone "moscow" (3 * 60 * 60)
  { mainGroupID := mainGroupID
    adminGroupID := adminGroupID
    stopChanClosed := false
    timezone := moscowTZ
    ScheduleManager := NewScheduleManager }

/-- A task that runs at a given time each week (its handler is not part of the delay). -/
structure scheduledTask where
  weekday : Int
  hour : Int
  minute : Int
  deriving DecidableEq, Repr

/-- The method `timeUntilNext`: `clock` is the value `time.Now()` returns.  Go's `%` on `int`
truncates, which is `Int.tmod`. -/
def Scheduler.timeUntilNext (s : Scheduler) (task : scheduledTask) (clock : time.Time) : Int :=
  let now := clock.In s.timezone
  let currentWeekday := now.Weekday
  let targetWeekday := task.weekday
  let daysUntil := Int.tmod (targetWeekday - currentWeekday + 7) 7
  let targetTime := time.Date now.Year now.Month (now.Day + daysUntil)
    task.hour task.minute 0 0 s.timezone
  let targetTime :=
    if targetTime.Before now || targetTime.Equal now then targetTime.AddDate 0 0 7
    else targetTime
  targetTime.Sub now

/-- The closures `Start` hands to `scheduleWeekly`. -/
inductive Handler where
  | sendSchedulePreview
  | scheduledTournamentStartFromSchedule (weekday : Int)
  | scheduledTournamentEndFromSchedule (weekday : Int)
  deriving DecidableEq, Repr

/-- A goroutine started by `scheduleWeekly`: the task it waits for and the handler it runs. -/
structure weeklyGoroutine where
  task : scheduledTask
  handler : Handler
  deriving DecidableEq, Repr

/-- The method `scheduleWeekly`: one more goroutine next to the ones already started. -/
def Scheduler.scheduleWeekly (_s : Scheduler) (weekday hour minute : Int) (handler : Handler)
    (goroutines : List weeklyGoroutine) : List weeklyGoroutine :=
  goroutines ++ [{ task := { weekday := weekday, hour := hour, minute := minute }
                   handler := handler }]

/-- The method `Start`: the goroutines afterwards, given the ones started before. -/
def Scheduler.Start (s : Scheduler) (goroutines : List weeklyGoroutine) :
    List weeklyGoroutine :=
  let g := s.scheduleWeekly time.Sunday 15 0 .sendSchedulePreview goroutines
  let g := s.scheduleWeekly time.Monday 12 0
    (.scheduledTournamentStartFromSchedule time.Monday) g
  let g := s.scheduleWeekly time.Monday 21 0
    (.scheduledTournamentEndFromSchedule time.Monday) g
  let g := s.scheduleWeekly time.Tuesday 12 0
    (.scheduledTournamentStartFromSchedule time.Tuesday) g
  let g := s.scheduleWeekly time.Tuesday 21 0
    (.scheduledTournamentEndFromSchedule time.Tuesday) g
  let g := s.scheduleWeekly time.Wednesday 12 0
    (.scheduledTournamentStartFromSchedule time.Wednesday) g
  s.scheduleWeekly time.Wednesday 21 0
    (.scheduledTournamentEndFromSchedule time.Wednesday) g

/-- The method `Stop`: `close(s.stopChan)`; closing a closed channel is a run-time panic,
the result `none`. -/
def Scheduler.Stop (s : Scheduler) : Option Scheduler :=
  if s.stopChanClosed then none else some { s with stopChanClosed := true }

/-- The method `scheduledTournamentStart`: the calls it makes. -/
def Scheduler.scheduledTournamentStart (s : Scheduler) (b : Bot)
    (limit lichessRatingLimit chesscomRatingLimit : Int) (announcementIntro : String) :
    List BotCall :=
  let create := BotCall.CreateTournament limit lichessRatingLimit chesscomRatingLimit
    announcementIntro
  if ¬ b.createTournamentOK then [create] else
  let announcementMessage := announcementIntro ++ "\n\nучастники:\nпока никого нет"
  let send := BotCall.SendMessageAndGetID s.mainGroupID announcementMessage
  match b.sentMessageID with
  | none => [create, send]
  | some messageID =>
    [create, send, .SetAnnouncementMessageID messageID, .PinMessage s.mainGroupID messageID]

/-- The method `scheduledTournamentEnd`: the calls it makes. -/
def Scheduler.scheduledTournamentEnd (s : Scheduler) (b : Bot) : List BotCall :=
  if ¬ b.TournamentExists then [] else
  let announcementMessageID := b.AnnouncementMessageID
  let unpin : List BotCall :=
    if announcementMessageID ≠ 0 then [.UnpinMessage s.mainGroupID announcementMessageID]
    else []
  unpin ++ [.RemoveTournament]

def Scheduler.scheduledTournamentStartFromSchedule (s : Scheduler) (b : Bot)
    (weekday : Int) : List BotCall :=
  match s.ScheduleManager.GetEventForWeekday weekday with
  | none => []
  | some event =>
    s.scheduledTournamentStart b event.Limit event.LichessLimit event.ChesscomLimit event.Intro

def Scheduler.scheduledTournamentEndFromSchedule (s : Scheduler) (b : Bot)
    (weekday : Int) : List BotCall :=
  match s.ScheduleManager.GetEventForWeekday weekday with
  | none => []
  | some _ => s.scheduledTournamentEnd b

/-- The method `sendSchedulePreview`: the scheduler afterwards and the calls made; `sent` is
the message ID `SendMessageWithButtonsAndGetID` returns, `none` for an error. -/
def Scheduler.sendSchedulePreview (s : Scheduler) (sent : Option Int) :
    Scheduler × List BotCall :=
  let sm := s.ScheduleManager.InitWeekSchedule
  let message := sm.FormatScheduleMessage
  let keyboard := GetScheduleMainKeyboard
  let call := BotCall.SendMessageWithButtonsAndGetID s.adminGroupID message keyboard
  match sent with
  | none => ({ s with ScheduleManager := sm }, [call])
  | some messageID => ({ s with ScheduleManager := sm.SetMessageID messageID }, [call])

/-- Where the goroutine of `scheduleWeekly` is: waiting in its `select` with the ticker set
to `delay`, running the handler, or returned. -/
inductive TriggerState where
  | Armed (delay : Int)
  | Firing
  | Stopped
  deriving DecidableEq, Repr

/-- What moves the goroutine on: the `select` takes `case <-ticker.C`, the handler returns,
or the `select` takes `case <-s.stopChan`. -/
inductive TriggerEvent where
  | tick
  | handlerReturns
  | stop
  deriving DecidableEq, Repr

/-- The state in which the goroutine enters its loop: the ticker is set to
`timeUntilNext(task)`. -/
def Scheduler.armTrigger (s : Scheduler) (task : scheduledTask) (clock : time.Time) :
    TriggerState :=
  .Armed (s.timeUntilNext task clock)

/-- One step of the loop of `scheduleWeekly`; `none` when the event cannot happen in the
state.  Nothing is ever sent on `stopChan`, so its case is taken only when it is closed;
after the handler the ticker is reset to `7 * 24 * time.Hour`; `return` ends the goroutine. -/
def Scheduler.triggerStep (s : Scheduler) : TriggerState → TriggerEvent → Option TriggerState
  | .Armed _, .tick => some .Firing
  | .Armed _, .stop => if s.stopChanClosed then some .Stopped else none
  | .Firing, .handlerReturns => some (.Armed (7 * 24 * time.Hour))
  | _, _ => none

/-- The states the goroutine passes through under a sequence of events, the first state
included; the trace ends where an event cannot happen. -/
def Scheduler.triggerTrace (s : Scheduler) : TriggerState → List TriggerEvent →
    List TriggerState
  | st, [] => [st]
  | st, ev :: evs =>
    match s.triggerStep st ev with
    | none => [st]
    | some st' => st :: s.triggerTrace st' evs

end cron

/-! ## Package `admingroup`: the handlers of the edit flow -/

namespace admingroup

open bot

/-- The fields of `tgbotapi.Message` the handler reads. -/
structure Message where
  ChatID : Int
  MessageID : Int
  Text : String
  deriving DecidableEq, Repr

/-- An update: `Message` is `none` for the nil pointer. -/
structure Update where
  Message : Option Message
  deriving DecidableEq, Repr

/-- The part of `handleScheduleFieldInput` after its `switch`: store the value, clear the
cursor, refresh the schedule message and react. -/
def storeFieldInput (approveEmoji : String) (sm : cron.ScheduleManager) (message : Message)
    (eventID field : String) (value : cron.Value) : cron.ScheduleManager × List BotCall :=
  match sm.UpdateEventField eventID field value with
  | (some err, sm) => (sm, [.SendMessage message.ChatID ("ошибка: " ++ err.Error)])
  | (none, sm) =>
    let sm := sm.ClearEditingState
    let scheduleMessageID := sm.GetMessageID
    let edits : List BotCall :=
      if scheduleMessageID ≠ 0 then
        [.EditMessageWithButtons message.ChatID scheduleMessageID sm.FormatScheduleMessage
          cron.GetScheduleMainKeyboard]
      else []
    (sm, edits ++ [.GiveReaction message.ChatID message.MessageID approveEmoji])

/-- The handler `handleScheduleFieldInput`, on the manager of the package-level scheduler:
the manager afterwards and the calls made on the bot.  `approveEmoji` is the value of
`utils.ApproveEmoji()`. -/
def handleScheduleFieldInput (approveEmoji : String) (sm : cron.ScheduleManager)
    (update : Update) : cron.ScheduleManager × List BotCall :=
  match update.Message with
  | none => (sm, [])
  | some message =>
    let (eventID, field) := sm.GetEditingState
    if eventID = "" ∨ field = "" then (sm, []) else
    let text := strings.TrimSpace message.Text
    if text = "" then (sm, []) else
    if field = "limit" ∨ field = "lichess_limit" ∨ field = "chesscom_limit" then
      match strconv.Atoi text with
      | none => (sm, [.SendMessage message.ChatID "введите число"])
      | some intVal =>
        if intVal < 0 then (sm, [.SendMessage message.ChatID "число должно быть положительным"])
        else storeFieldInput approveEmoji sm message eventID field (.int intVal)
    else if field = "intro" then
      storeFieldInput approveEmoji sm message eventID field (.string text)
    else (sm, [])

/-- The fields of a `tgbotapi.CallbackQuery` the callback handler reads; the handler is
registered for callback updates, whose `CallbackQuery` and its `Message` are not nil. -/
structure CallbackQuery where
  ID : String
  ChatID : Int
  MessageID : Int
  Data : String
  deriving DecidableEq, Repr

/-- The `error` a handler returns: nil, the error of its last call on the bot (nil or not),
or one it makes itself with `fmt.Errorf`. -/
inductive Returned where
  | nil
  | ofBot
  | Errorf (text : String)
  deriving DecidableEq, Repr

/-- What a handler leaves behind: the manager, the calls made on the bot, first call first,
and the returned error. -/
structure Outcome where
  sm : cron.ScheduleManager
  calls : List BotCall
  returned : Returned
  deriving DecidableEq, Repr

def handleScheduleApprove (sm : cron.ScheduleManager) (chatID messageID : Int) : Outcome :=
  let sm := sm.SetApproved true
  let sm := sm.ClearEditingState
  let message := sm.FormatScheduleMessage
  { sm := sm, calls := [.EditMessage chatID messageID message], returned := .ofBot }

def handleScheduleShowEditEvents (sm : cron.ScheduleManager) (chatID messageID : Int) :
    Outcome :=
  let message := sm.FormatScheduleMessage
  let message := message ++ "\n\n*выберите турнир для редактирования:*"
  let keyboard := cron.GetScheduleSelectEventKeyboard "edit_event"
  { sm := sm, calls := [.EditMessageWithButtons chatID messageID message keyboard]
    returned := .ofBot }

/-- The handler `handleScheduleShowDeleteEvents`; `none` when `GetDeleteEventKeyboard`
panics. -/
def handleScheduleShowDeleteEvents (sm : cron.ScheduleManager) (chatID messageID : Int) :
    Option Outcome :=
  let message := sm.FormatScheduleMessage
  let message := message
    ++ "\n\n*выберите турнир для удаления/восстановления (только на эту неделю):*"
  match sm.GetDeleteEventKeyboard with
  | none => none
  | some keyboard =>
    some { sm := sm, calls := [.EditMessageWithButtons chatID messageID message keyboard]
           returned := .ofBot }

def handleScheduleBack (sm : cron.ScheduleManager) (chatID messageID : Int) : Outcome :=
  let sm := sm.ClearEditingState
  let message := sm.FormatScheduleMessage
  let keyboard := cron.GetScheduleMainKeyboard
  { sm := sm, calls := [.EditMessageWithButtons chatID messageID message keyboard]
    returned := .ofBot }

def handleScheduleSelectEditEvent (sm : cron.ScheduleManager) (chatID messageID : Int)
    (eventID : String) : Outcome :=
  match sm.GetEvent eventID with
  | none =>
    { sm := sm, calls := [.EditMessage chatID messageID "турнир не найден"], returned := .ofBot }
  | some event =>
    let message := sm.FormatScheduleMessage
    let message := message ++ ("\n\n*редактирование: " ++ event.Day ++ "*\nвыберите поле:")
    let keyboard := cron.GetScheduleEditFieldKeyboard eventID
    { sm := sm, calls := [.EditMessageWithButtons chatID messageID message keyboard]
      returned := .ofBot }

/-- The handler `handleScheduleDeleteEvent`; `none` when `GetDeleteEventKeyboard` panics. -/
def handleScheduleDeleteEvent (sm : cron.ScheduleManager) (chatID messageID : Int)
    (eventID : String) : Option Outcome :=
  match sm.GetEvent eventID with
  | none =>
    some { sm := sm, calls := [.EditMessage chatID messageID "турнир не найден"]
           returned := .ofBot }
  | some event =>
    let sm := if event.Deleted then (sm.RestoreEvent eventID).2 else (sm.DeleteEvent eventID).2
    let message := sm.FormatScheduleMessage
    let message := message
      ++ "\n\n*выберите турнир для удаления/восстановления (только на эту неделю):*"
    match sm.GetDeleteEventKeyboard with
    | none => none
    | some keyboard =>
      some { sm := sm, calls := [.EditMessageWithButtons chatID messageID message keyboard]
             returned := .ofBot }

def handleScheduleSelectField (sm : cron.ScheduleManager) (chatID messageID : Int)
    (eventID field : String) : Outcome :=
  match sm.GetEvent eventID with
  | none =>
    { sm := sm, calls := [.EditMessage chatID messageID "турнир не найден"], returned := .ofBot }
  | some event =>
    let sm := sm.SetEditingEvent eventID field
    let named : Option (String × String) :=
      if field = "limit" then some ("лимит участников", fmt.d event.Limit)
      else if field = "lichess_limit" then
        some ("лимит рейтинга lichess", fmt.d event.LichessLimit)
      else if field = "chesscom_limit" then
        some ("лимит рейтинга chess.com", fmt.d event.ChesscomLimit)
      else if field = "intro" then some ("текст объявления", event.Intro)
      else none
    match named with
    | none => { sm := sm, calls := [], returned := .Errorf ("unknown field: " ++ field) }
    | some (fieldName, currentValue) =>
      let message := "*редактирование " ++ event.Day ++ "*\n\nполе: " ++ fieldName
        ++ "\nтекущее значение: `" ++ currentValue ++ "`\n\nотправьте новое значение:"
      let keyboard := cron.GetScheduleBackKeyboard
      { sm := sm, calls := [.EditMessageWithButtons chatID messageID message keyboard]
        returned := .ofBot }

/-- The `switch action` of `handleScheduleCallback`. -/
def dispatchScheduleAction (sm : cron.ScheduleManager) (chatID messageID : Int)
    (parts : List String) : Option Outcome :=
  let action := parts.getD 1 ""
  if action = "approve" then some (handleScheduleApprove sm chatID messageID)
  else if action = "edit" then some (handleScheduleShowEditEvents sm chatID messageID)
  else if action = "delete" then handleScheduleShowDeleteEvents sm chatID messageID
  else if action = "back" then some (handleScheduleBack sm chatID messageID)
  else if action = "edit_event" then
    if parts.length < 3 then some { sm := sm, calls := [], returned := .Errorf "missing event id" }
    else some (handleScheduleSelectEditEvent sm chatID messageID (parts.getD 2 ""))
  else if action = "delete_event" then
    if parts.length < 3 then some { sm := sm, calls := [], returned := .Errorf "missing event id" }
    else handleScheduleDeleteEvent sm chatID messageID (parts.getD 2 "")
  else if action = "field" then
    if parts.length < 4 then
      some { sm := sm, calls := [], returned := .Errorf "missing event id or field" }
    else some (handleScheduleSelectField sm chatID messageID (parts.getD 2 "") (parts.getD 3 ""))
  else some { sm := sm, calls := [], returned := .nil }

/-- The handler `handleScheduleCallback`: the callback is answered first, then the action
named in the callback data is carried out. -/
def handleScheduleCallback (sm : cron.ScheduleManager) (query : CallbackQuery) :
    Option Outcome :=
  let answer := BotCall.AnswerCallback query.ID
  let chatID := query.ChatID
  let messageID := query.MessageID
  let data := query.Data
  match sm.GetCurrentSchedule with
  | none =>
    some { sm := sm
           calls := [answer, .EditMessage chatID messageID
             "расписание не инициализировано. используйте /send_schedule для создания нового"]
           returned := .ofBot }
  | some _ =>
    let parts := strings.Split data ":"
    if parts.length < 2 then
      some { sm := sm, calls := [answer], returned := .Errorf ("invalid callback data: " ++ data) }
    else
      (dispatchScheduleAction sm chatID messageID parts).map
        (fun o => { o with calls := answer :: o.calls })

/-- The handler `handleSendSchedule` of the command `/send_schedule`; `sent` is the message
ID `SendMessageWithButtonsAndGetID` returns, `none` for an error; the result is `none` when
`update.Message` is nil. -/
def handleSendSchedule (sm : cron.ScheduleManager) (update : Update) (sent : Option Int) :
    Option Outcome :=
  let sm := sm.InitWeekSchedule
  let message := sm.FormatScheduleMessage
  let keyboard := cron.GetScheduleMainKeyboard
  match update.Message with
  | none => none
  | some m =>
    let call := BotCall.SendMessageWithButtonsAndGetID m.ChatID message keyboard
    match sent with
    | none => some { sm := sm, calls := [call], returned := .ofBot }
    | some messageID => some { sm := sm.SetMessageID messageID, calls := [call], returned := .nil }

/-- An update the edit flow receives: a callback of the schedule message, or a message. -/
inductive Input where
  | callback (query : CallbackQuery)
  | message (update : Update)
  deriving DecidableEq, Repr

/-- The manager after the handler for the input has run; `none` if it panics. -/
def step (approveEmoji : String) (sm : cron.ScheduleManager) : Input →
    Option cron.ScheduleManager
  | .callback query => (handleScheduleCallback sm query).map (fun o => o.sm)
  | .message update => some (handleScheduleFieldInput approveEmoji sm update).1

/-- The manager after the handlers for a sequence of inputs, first input first. -/
def run (approveEmoji : String) (sm : cron.ScheduleManager) : List Input →
    Option cron.ScheduleManager
  | [] => some sm
  | input :: inputs => (step approveEmoji sm input).bind (fun sm => run approveEmoji sm inputs)

end admingroup

/-! # Theorems -/

namespace time

/-! ### Facts about the calendar arithmetic -/

theorem norm_12 (hi lo : Int) : norm hi lo 12 = (hi + lo / 12, lo % 12) := by
  unfold norm
  by_cases h : lo < 0 <;> simp only [h, if_true, if_false] <;> split_ifs <;>
    refine Prod.ext ?_ ?_ <;> simp only <;> omega

theorem norm_24 (hi lo : Int) : norm hi lo 24 = (hi + lo / 24, lo % 24) := by
  unfold norm
  by_cases h : lo < 0 <;> simp only [h, if_true, if_false] <;> split_ifs <;>
    refine Prod.ext ?_ ?_ <;> simp only <;> omega

theorem norm_60 (hi lo : Int) : norm hi lo 60 = (hi + lo / 60, lo % 60) := by
  unfold norm
  by_cases h : lo < 0 <;> simp only [h, if_true, if_false] <;> split_ifs <;>
    refine Prod.ext ?_ ?_ <;> simp only <;> omega

theorem norm_ns (hi lo : Int) :
    norm hi lo 1000000000 = (hi + lo / 1000000000, lo % 1000000000) := by
  unfold norm
  by_cases h : lo < 0 <;> simp only [h, if_true, if_false] <;> split_ifs <;>
    refine Prod.ext ?_ ?_ <;> simp only <;> omega

theorem absYearDay_spec (abs : Int) :
    ∃ a b c e : Int, 0 ≤ b ∧ b ≤ 3 ∧ 0 ≤ c ∧ c ≤ 24 ∧ 0 ≤ e ∧ e ≤ 3 ∧
      (absYearDay abs).1 = 400 * a + 100 * b + 4 * c + e + absoluteZeroYear ∧
      abs / secondsPerDay = 146097 * a + 36524 * b + 1461 * c + 365 * e + (absYearDay abs).2 ∧
      0 ≤ (absYearDay abs).2 ∧
      (absYearDay abs).2 < 365 + (if e = 3 ∧ (c ≠ 24 ∨ b = 3) then 1 else 0) := by
  refine ⟨abs / secondsPerDay / 146097, _, _, _, ?_, ?_, ?_, ?_, ?_, ?_, rfl, ?_, ?_, ?_⟩
  all_goals try simp only [absYearDay, daysPer400Years, daysPer100Years, daysPer4Years]
  all_goals try split_ifs
  all_goals omega

/-- For a year written by its position in the 400-, 100- and 4-year cycles, `daysSinceEpoch`
is the sum of the cycle lengths and `isLeap` is decided by the position. -/
theorem year_cycles (a b c e : Int) (hb0 : 0 ≤ b) (hb : b ≤ 3) (hc0 : 0 ≤ c) (hc : c ≤ 24)
    (he0 : 0 ≤ e) (he : e ≤ 3) :
    daysSinceEpoch (400 * a + 100 * b + 4 * c + e + absoluteZeroYear)
        = 146097 * a + 36524 * b + 1461 * c + 365 * e ∧
      (isLeap (400 * a + 100 * b + 4 * c + e + absoluteZeroYear) = true
        ↔ (e = 3 ∧ (c ≠ 24 ∨ b = 3))) := by
  constructor
  · simp only [daysSinceEpoch, daysPer400Years, daysPer100Years, daysPer4Years, absoluteZeroYear]
    omega
  · simp only [isLeap, absoluteZeroYear, Bool.and_eq_true, Bool.or_eq_true, beq_iff_eq,
      bne_iff_ne, ne_eq]
    omega

/-- The month and day chosen by `absDate` add up to the day of the year again. -/
theorem absDate_spec (abs : Int) :
    (absDate abs).1 = (absYearDay abs).1 ∧
    1 ≤ (absDate abs).2.1 ∧ (absDate abs).2.1 ≤ 12 ∧
    daysBefore.getD ((absDate abs).2.1 - 1).toNat 0
      + (if isLeap (absYearDay abs).1 && (absDate abs).2.1 ≥ 3 then 1 else 0)
      + ((absDate abs).2.2 - 1) = (absYearDay abs).2 := by
  obtain ⟨a, b, c, e, hb0, hb, hc0, hc, he0, he, hy, -, hd0, hd⟩ := absYearDay_spec abs
  have hleap := (year_cycles a b c e hb0 hb hc0 hc he0 he).2
  rw [← hy] at hleap
  have hd1 : (absYearDay abs).2 < 365 + (if isLeap (absYearDay abs).1 = true then 1 else 0) := by
    by_cases hE : e = 3 ∧ (c ≠ 24 ∨ b = 3)
    · rw [if_pos (hleap.mpr hE)]; rw [if_pos hE] at hd; exact hd
    · rw [if_neg (fun h => hE (hleap.mp h))]; rw [if_neg hE] at hd; exact hd
  clear hd hleap hy
  have hpair : absYearDay abs = ((absYearDay abs).1, (absYearDay abs).2) := rfl
  generalize (absYearDay abs).1 = year at *
  generalize (absYearDay abs).2 = yday at *
  simp only [absDate, hpair]
  cases hl : isLeap year
  · simp only [hl, Bool.false_and, Bool.false_eq_true, if_false] at hd1 ⊢
    have h0 : 0 ≤ yday / 31 := by omega
    have h1 : yday / 31 ≤ 11 := by omega
    generalize hq : yday / 31 = q at *
    interval_cases q <;> simp [daysBefore] <;> split_ifs <;> (try simp) <;> omega
  · simp only [hl, Bool.true_and, if_true] at hd1 ⊢
    by_cases h59 : yday = 59
    · subst h59; simp [daysBefore]
    · have hne : (yday == 31 + 29 - 1) = false := by simpa using h59
      simp only [hne, Bool.false_eq_true, if_false, decide_eq_true_eq]
      by_cases hgt : yday > 31 + 29 - 1
      · simp only [hgt, if_true]
        have h0 : 0 ≤ (yday - 1) / 31 := by omega
        have h1 : (yday - 1) / 31 ≤ 11 := by omega
        generalize hq : (yday - 1) / 31 = q at *
        interval_cases q <;> simp [daysBefore] <;> split_ifs <;> (try simp at *) <;> omega
      · simp only [hgt, if_false]
        have h0 : 0 ≤ yday / 31 := by omega
        have h1 : yday / 31 ≤ 1 := by omega
        generalize hq : yday / 31 = q at *
        interval_cases q <;> simp [daysBefore] <;> split_ifs <;> (try simp at *) <;> omega

/-- The instant built by `Date` when the month is in range: every other argument enters
linearly. -/
theorem Date_unixNano (year month day hour min sec nsec : Int)
    (loc : Location) (hm1 : 1 ≤ month) (hm2 : month ≤ 12) :
    (Date year month day hour min sec nsec loc).unixNano
      = ((daysSinceEpoch year + daysBefore.getD (month - 1).toNat 0
            + (if isLeap year && month ≥ 3 then 1 else 0) + (day - 1)) * 86400
          + hour * 3600 + min * 60 + sec - unixToAbsolute - loc.offset) * 1000000000
        + nsec := by
  have e1 : (month - 1) / 12 = 0 := by omega
  have e2 : (month - 1) % 12 = month - 1 := by omega
  have e3 : month - 1 + 1 - 1 = month - 1 := by omega
  have e4 : month - 1 + 1 = month := by omega
  simp only [Date, norm_12, norm_ns, norm_60, norm_24, e1, e2, e3, e4, add_zero, March,
    secondsPerDay, secondsPerHour, secondsPerMinute]
  generalize daysSinceEpoch year = A
  generalize daysBefore.getD (month - 1).toNat 0 = B
  generalize unixToAbsolute = U
  split_ifs <;> omega

/-- Rebuilding a date from the calendar fields of `t`, `k` days later, at a given time of
day: the result is `k` days after the start of the day of `t` on the wall clock. -/
theorem Date_of_fields (t : Time) (k hour min sec nsec : Int) (loc : Location) :
    (Date t.Year t.Month (t.Day + k) hour min sec nsec loc).unixNano
      = ((t.abs / 86400 + k) * 86400 + hour * 3600 + min * 60 + sec
          - unixToAbsolute - loc.offset) * 1000000000 + nsec := by
  obtain ⟨a, b, c, e, hb0, hb, hc0, hc, he0, he, hy, hsum, -, -⟩ := absYearDay_spec t.abs
  obtain ⟨h1, hm1, hm2, h4⟩ := absDate_spec t.abs
  have hdse := (year_cycles a b c e hb0 hb hc0 hc he0 he).1
  rw [← hy, ← h1] at hdse
  rw [← h1] at h4
  simp only [secondsPerDay, secondsPerHour, secondsPerMinute] at hsum
  simp only [Time.Year, Time.Month, Time.Day]
  rw [Date_unixNano _ _ _ _ _ _ _ _ hm1 hm2]
  generalize daysSinceEpoch (absDate t.abs).1 = A at *
  generalize daysBefore.getD ((absDate t.abs).2.1 - 1).toNat 0 = B at *
  generalize (absYearDay t.abs).2 = Y at *
  generalize (absDate t.abs).2.2 = D at *
  generalize unixToAbsolute = U
  split_ifs at h4 ⊢ <;> omega


theorem Date_loc (year month day hour min sec nsec : Int) (loc : Location) :
    (Date year month day hour min sec nsec loc).loc = loc := rfl

/-- In a location with a single zone `AddDate(0, 0, k)` moves the instant by `k` days. -/
theorem AddDate_days (t : Time) (k : Int) :
    (t.AddDate 0 0 k).unixNano = t.unixNano + k * 86400000000000 := by
  simp only [Time.AddDate, add_zero]
  rw [Date_of_fields]
  simp only [Time.Clock, Time.abs, Time.unixSec, Time.nsec, secondsPerDay, secondsPerHour,
    secondsPerMinute]
  generalize unixToAbsolute = U
  omega

/-- The weekday is the day count from the absolute epoch, a Monday, modulo seven. -/
theorem Weekday_eq (t : Time) : t.Weekday = (t.abs / 86400 + 1) % 7 := by
  simp only [Time.Weekday, Monday, secondsPerDay, secondsPerHour, secondsPerMinute,
    secondsPerWeek]
  omega

end time

namespace cron

open time

/-! ### `timeUntilNext` -/

/-- The instant `timeUntilNext` aims at, and the delay it returns, in closed form: `A` is the
wall-clock second count of `now`, `du` the value of `daysUntil`. -/
theorem timeUntilNext_closed (s : Scheduler) (task : scheduledTask) (clock : Time) :
    ∃ A du T0 T : Int,
      A = clock.unixNano / 1000000000 + s.timezone.offset + unixToAbsolute ∧
      du = Int.tmod (task.weekday - (A / 86400 + 1) % 7 + 7) 7 ∧
      T0 = ((A / 86400 + du) * 86400 + task.hour * 3600 + task.minute * 60
              - unixToAbsolute - s.timezone.offset) * 1000000000 ∧
      T = (if T0 ≤ clock.unixNano then T0 + 604800000000000 else T0) ∧
      s.timeUntilNext task clock
        = (if T - clock.unixNano > maxDuration then maxDuration
           else if T - clock.unixNano < minDuration then minDuration
           else T - clock.unixNano) := by
  refine ⟨_, _, _, _, rfl, rfl, rfl, rfl, ?_⟩
  have habs : (clock.In s.timezone).abs
      = clock.unixNano / 1000000000 + s.timezone.offset + unixToAbsolute := rfl
  have hN : (clock.In s.timezone).unixNano = clock.unixNano := rfl
  have hT0 := Date_of_fields (clock.In s.timezone)
    (Int.tmod (task.weekday - (clock.In s.timezone).Weekday + 7) 7) task.hour task.minute 0 0
    s.timezone
  rw [Weekday_eq, habs] at hT0
  simp only [add_zero] at hT0
  simp only [Scheduler.timeUntilNext, Time.Sub, Time.Before, Time.Equal, Weekday_eq, habs, hN,
    Bool.or_eq_true, decide_eq_true_eq]
  generalize Date _ _ _ _ _ _ _ _ = D at hT0 ⊢
  have hA := AddDate_days D 7
  rw [← hT0]
  by_cases hle : D.unixNano ≤ clock.unixNano
  · have hor : D.unixNano < clock.unixNano ∨ D.unixNano = clock.unixNano := by omega
    simp only [hor, hle, if_true, hA]
    norm_num
  · have hor : ¬ (D.unixNano < clock.unixNano ∨ D.unixNano = clock.unixNano) := by omega
    simp only [hor, hle, if_false]

/-- Go's `% 7` leaves a value strictly between `-7` and `7`. -/
theorem tmod_seven_bounds (x : Int) : -7 < x.tmod 7 ∧ x.tmod 7 < 7 := by
  constructor
  · cases x with
    | ofNat n =>
      have : (Int.ofNat n).tmod 7 = ((n % 7 : Nat) : Int) := rfl
      omega
    | negSucc n =>
      have : (Int.negSucc n).tmod 7 = -(((n + 1) % 7 : Nat) : Int) := rfl
      omega
  · exact Int.tmod_lt_of_pos x (by decide)

/-- C1: for every instant `time.Now()` can return and every target weekday, hour in 0..23 and
minute in 0..59, the delay `timeUntilNext` returns is strictly positive and at most seven
days; when now is exactly on the target instant the delay is exactly seven days. -/
theorem C1_timeUntilNext_pos_le_week (s : Scheduler) (task : scheduledTask) (clock : Time)
    (hh0 : 0 ≤ task.hour) (hh : task.hour ≤ 23) (hm0 : 0 ≤ task.minute)
    (hm : task.minute ≤ 59) :
    0 < s.timeUntilNext task clock ∧ s.timeUntilNext task clock ≤ 7 * 24 * Hour ∧
    ((clock.In s.timezone).Weekday = task.weekday →
      (clock.In s.timezone).Clock = (task.hour, task.minute, 0) → clock.nsec = 0 →
      s.timeUntilNext task clock = 7 * 24 * Hour) := by
  obtain ⟨A, du, T0, T, hA, hdu, hT0, hT, hres⟩ := timeUntilNext_closed s task clock
  obtain ⟨hdl, hdu7⟩ := tmod_seven_bounds (task.weekday - (A / 86400 + 1) % 7 + 7)
  rw [← hdu] at hdl hdu7
  rw [hres]
  simp only [Hour, Minute, Second, Millisecond, Microsecond, Nanosecond, maxDuration,
    minDuration]
  have hw : (clock.In s.timezone).Weekday = (A / 86400 + 1) % 7 := by
    rw [Weekday_eq, hA]; rfl
  have hc : (clock.In s.timezone).Clock
      = (A % 86400 / 3600, (A % 86400 - A % 86400 / 3600 * 3600) / 60,
          A % 86400 - A % 86400 / 3600 * 3600
            - (A % 86400 - A % 86400 / 3600 * 3600) / 60 * 60) := by
    rw [hA]; rfl
  rw [hw, hc]
  simp only [Time.nsec, Prod.mk.injEq]
  generalize unixToAbsolute = U at *
  generalize s.timezone.offset = o at *
  generalize clock.unixNano = N at *
  refine ⟨?_, ?_, ?_⟩
  · split_ifs at hT ⊢ <;> omega
  · split_ifs at hT ⊢ <;> omega
  · intro h1 h2 h3
    have hdu0 : du = 0 := by
      rw [hdu, ← h1]
      norm_num
    split_ifs at hT ⊢ <;> omega

/-- The weekday and the clock of an instant, by the wall-clock second count. -/
theorem Weekday_Clock_In (t : Time) (loc : Location) :
    (t.In loc).Weekday = ((t.unixNano / 1000000000 + loc.offset + unixToAbsolute) / 86400 + 1) % 7 ∧
    (t.In loc).Clock
      = ((t.unixNano / 1000000000 + loc.offset + unixToAbsolute) % 86400 / 3600,
         ((t.unixNano / 1000000000 + loc.offset + unixToAbsolute) % 86400
            - (t.unixNano / 1000000000 + loc.offset + unixToAbsolute) % 86400 / 3600 * 3600) / 60,
         (t.unixNano / 1000000000 + loc.offset + unixToAbsolute) % 86400
            - (t.unixNano / 1000000000 + loc.offset + unixToAbsolute) % 86400 / 3600 * 3600
            - ((t.unixNano / 1000000000 + loc.offset + unixToAbsolute) % 86400
                - (t.unixNano / 1000000000 + loc.offset + unixToAbsolute) % 86400 / 3600 * 3600)
              / 60 * 60) := by
  constructor
  · rw [Weekday_eq]; rfl
  · rfl

/-- C2: for every now and every target weekday in Sunday..Saturday, hour in 0..23 and minute
in 0..59, the instant `now + timeUntilNext(task)` falls on the target weekday at exactly
hour:minute:00.000000000 in the scheduler's zone, and no instant strictly between now and it
does. -/
theorem C2_timeUntilNext_earliest (s : Scheduler) (task : scheduledTask) (clock : Time)
    (hw0 : 0 ≤ task.weekday) (hw : task.weekday ≤ 6)
    (hh0 : 0 ≤ task.hour) (hh : task.hour ≤ 23) (hm0 : 0 ≤ task.minute)
    (hm : task.minute ≤ 59) :
    (((clock.Add (s.timeUntilNext task clock)).In s.timezone).Weekday = task.weekday ∧
      ((clock.Add (s.timeUntilNext task clock)).In s.timezone).Clock
        = (task.hour, task.minute, 0) ∧
      (clock.Add (s.timeUntilNext task clock)).nsec = 0) ∧
    ∀ t : Time, clock.unixNano < t.unixNano →
      t.unixNano < (clock.Add (s.timeUntilNext task clock)).unixNano →
      ¬ ((t.In s.timezone).Weekday = task.weekday ∧
          (t.In s.timezone).Clock = (task.hour, task.minute, 0) ∧ t.nsec = 0) := by
  obtain ⟨A, du, T0, T, hA, hdu, hT0, hT, hres⟩ := timeUntilNext_closed s task clock
  have hdu2 : du = (task.weekday - (A / 86400 + 1) % 7 + 7) % 7 := by
    rw [hdu]
    exact Int.tmod_eq_emod (by omega) (by decide)
  clear hdu
  have hr : (clock.Add (s.timeUntilNext task clock)).unixNano = T := by
    simp only [Time.Add, hres, maxDuration, minDuration]
    generalize unixToAbsolute = U at *
    split_ifs at hT ⊢ <;> omega
  simp only [Time.nsec, hr]
  have hwc := Weekday_Clock_In (clock.Add (s.timeUntilNext task clock)) s.timezone
  rw [hr] at hwc
  rw [hwc.1, hwc.2]
  have htc := fun t : Time => Weekday_Clock_In t s.timezone
  simp only [Prod.mk.injEq]
  generalize unixToAbsolute = U at *
  generalize s.timezone.offset = o at *
  generalize clock.unixNano = N at *
  refine ⟨⟨?_, ⟨?_, ?_, ?_⟩, ?_⟩, ?_⟩
  · split_ifs at hT <;> omega
  · split_ifs at hT <;> omega
  · split_ifs at hT <;> omega
  · split_ifs at hT <;> omega
  · split_ifs at hT <;> omega
  · intro t h1 h2
    rw [(htc t).1, (htc t).2]
    simp only [Prod.mk.injEq]
    generalize t.unixNano = M at *
    rintro ⟨g1, ⟨g2, g3, g4⟩, g5⟩
    split_ifs at hT <;> omega

/-- Witness for C1: Sunday 2026-11-08 15:00:00 Moscow time, exactly on the preview trigger. -/
theorem C1_timeUntilNext_pos_le_week_witness :
    (0 ≤ (15 : Int) ∧ (15 : Int) ≤ 23 ∧ 0 ≤ (0 : Int) ∧ (0 : Int) ≤ 59) ∧
    (0 < (New 1 2).timeUntilNext ⟨Sunday, 15, 0⟩ ⟨1794139200000000000, FixedZone "UTC" 0⟩ ∧
      (New 1 2).timeUntilNext ⟨Sunday, 15, 0⟩ ⟨1794139200000000000, FixedZone "UTC" 0⟩
        ≤ 7 * 24 * Hour) :=
  ⟨by decide,
    let h := C1_timeUntilNext_pos_le_week (New 1 2) ⟨Sunday, 15, 0⟩
      ⟨1794139200000000000, FixedZone "UTC" 0⟩ (by decide) (by decide) (by decide) (by decide)
    ⟨h.1, h.2.1⟩⟩

/-- Witness for C2: from Wednesday 2026-11-04 15:00:00 Moscow time the Monday 12:00 trigger
is reached on a Monday at 12:00:00. -/
theorem C2_timeUntilNext_earliest_witness :
    (((⟨1793793600000000000, FixedZone "UTC" 0⟩ : Time).Add
        ((New 1 2).timeUntilNext ⟨Monday, 12, 0⟩ ⟨1793793600000000000, FixedZone "UTC" 0⟩)).In
          (New 1 2).timezone).Weekday = Monday ∧
    (((⟨1793793600000000000, FixedZone "UTC" 0⟩ : Time).Add
        ((New 1 2).timeUntilNext ⟨Monday, 12, 0⟩ ⟨1793793600000000000, FixedZone "UTC" 0⟩)).In
          (New 1 2).timezone).Clock = (12, 0, 0) :=
  let h := C2_timeUntilNext_earliest (New 1 2) ⟨Monday, 12, 0⟩
    ⟨1793793600000000000, FixedZone "UTC" 0⟩ (by decide) (by decide) (by decide) (by decide)
    (by decide) (by decide)
  ⟨h.1.1, h.1.2.1⟩

/-! ### The lookup loop and in-place updates -/

theorem eventIndex_eq_none {eventID : String} {l : List ScheduledEvent} :
    eventIndex eventID l = none ↔ ∀ e ∈ l, e.ID ≠ eventID := by
  induction l with
  | nil => simp [eventIndex]
  | cons a l ih =>
    by_cases h : a.ID = eventID
    · simp [eventIndex, h]
    · simp [eventIndex, h, ih]

theorem eventIndex_eq_some {eventID : String} {l : List ScheduledEvent} {i : Nat} :
    eventIndex eventID l = some i ↔
      ∃ e, l[i]? = some e ∧ e.ID = eventID ∧
        ∀ j, j < i → ∀ e', l[j]? = some e' → e'.ID ≠ eventID := by
  induction l generalizing i with
  | nil => simp [eventIndex]
  | cons a l ih =>
    by_cases h : a.ID = eventID
    · simp only [eventIndex, h, if_true, Option.some.injEq]
      constructor
      · rintro rfl
        exact ⟨a, by simp, h, by intro j hj; omega⟩
      · rintro ⟨e, -, -, hmin⟩
        by_contra hne
        exact hmin 0 (by omega) a (by simp) h
    · simp only [eventIndex, h, if_false, Option.map_eq_some']
      constructor
      · rintro ⟨k, hk, rfl⟩
        obtain ⟨e, he, hid, hmin⟩ := ih.mp hk
        refine ⟨e, by simpa using he, hid, ?_⟩
        intro j hj e' he'
        cases j with
        | zero => simp at he'; subst he'; exact h
        | succ j => exact hmin j (by omega) e' (by simpa using he')
      · rintro ⟨e, he, hid, hmin⟩
        cases i with
        | zero => simp at he; subst he; exact absurd hid h
        | succ k =>
          refine ⟨k, ih.mpr ⟨e, by simpa using he, hid, ?_⟩, rfl⟩
          intro j hj e' he'
          exact hmin (j + 1) (by omega) e' (by simpa using he')

/-- An update through the pointer that keeps the ID does not change where any ID is found. -/
theorem eventIndex_modify (f : ScheduledEvent → ScheduledEvent) (hf : ∀ e, (f e).ID = e.ID)
    (eventID : String) (l : List ScheduledEvent) (i : Nat) :
    eventIndex eventID (l.modify f i) = eventIndex eventID l := by
  induction l generalizing i with
  | nil => simp [List.modify_nil]
  | cons a l ih =>
    cases i with
    | zero => rw [List.modify_zero_cons]; simp only [eventIndex, hf]
    | succ k => rw [List.modify_succ_cons]; simp only [eventIndex, ih]

theorem modify_modify_same (f g : ScheduledEvent → ScheduledEvent) (l : List ScheduledEvent)
    (i : Nat) : (l.modify f i).modify g i = l.modify (fun e => g (f e)) i := by
  induction l generalizing i with
  | nil => simp [List.modify_nil]
  | cons a l ih =>
    cases i with
    | zero => simp only [List.modify_zero_cons]
    | succ k => simp only [List.modify_succ_cons, ih]

theorem modify_eq_set {l : List ScheduledEvent} {i : Nat} {e : ScheduledEvent}
    (h : l[i]? = some e) (f : ScheduledEvent → ScheduledEvent) :
    l.modify f i = l.set i (f e) := by
  induction l generalizing i with
  | nil => simp at h
  | cons a l ih =>
    cases i with
    | zero => simp at h; subst h; rw [List.modify_zero_cons]; rfl
    | succ k => simp at h; rw [List.modify_succ_cons, ih h]; rfl

/-! ### `GetEventForWeekday` -/

theorem eventForWeekday_cons (weekday : Int) (a : ScheduledEvent) (l : List ScheduledEvent) :
    eventForWeekday weekday (a :: l)
      = if a.Weekday = weekday ∧ ¬ a.Deleted = true then some a
        else eventForWeekday weekday l := rfl

theorem eventForWeekday_eq_none {weekday : Int} {l : List ScheduledEvent} :
    eventForWeekday weekday l = none ↔ ∀ e ∈ l, e.Weekday = weekday → e.Deleted = true := by
  induction l with
  | nil => simp [eventForWeekday]
  | cons a l ih =>
    by_cases h : a.Weekday = weekday ∧ ¬ a.Deleted = true
    · rw [eventForWeekday_cons, if_pos h]
      simp only [reduceCtorEq, false_iff]
      intro hall
      exact h.2 (hall a (by simp) h.1)
    · rw [eventForWeekday_cons, if_neg h, ih]
      simp only [List.mem_cons, forall_eq_or_imp]
      constructor
      · intro hall
        exact ⟨fun hw => by by_contra hd; exact h ⟨hw, hd⟩, hall⟩
      · intro hall
        exact hall.2

theorem eventForWeekday_eq_some {weekday : Int} {l : List ScheduledEvent}
    {e : ScheduledEvent} :
    eventForWeekday weekday l = some e ↔
      ∃ i : Nat, l[i]? = some e ∧ e.Weekday = weekday ∧ e.Deleted = false ∧
        ∀ j : Nat, j < i → ∀ e' : ScheduledEvent, l[j]? = some e' →
          ¬ (e'.Weekday = weekday ∧ e'.Deleted = false) := by
  induction l with
  | nil => simp [eventForWeekday]
  | cons a l ih =>
    by_cases h : a.Weekday = weekday ∧ ¬ a.Deleted = true
    · rw [eventForWeekday_cons, if_pos h]
      simp only [Option.some.injEq]
      constructor
      · rintro rfl
        exact ⟨0, by simp, h.1, by simpa using h.2, by intro j hj; omega⟩
      · rintro ⟨i, he, -, -, hmin⟩
        cases i with
        | zero => simpa using he
        | succ k =>
          exact absurd ⟨h.1, by simpa using h.2⟩ (hmin 0 (by omega) a (by simp))
    · rw [eventForWeekday_cons, if_neg h, ih]
      constructor
      · rintro ⟨i, he, hw, hd, hmin⟩
        refine ⟨i + 1, by simpa using he, hw, hd, ?_⟩
        intro j hj e' he'
        cases j with
        | zero =>
          simp at he'; subst he'
          intro hc
          exact h ⟨hc.1, by simp [hc.2]⟩
        | succ j => exact hmin j (by omega) e' (by simpa using he')
      · rintro ⟨i, he, hw, hd, hmin⟩
        cases i with
        | zero =>
          simp at he; subst he
          exact absurd ⟨hw, by simp [hd]⟩ h
        | succ k =>
          refine ⟨k, by simpa using he, hw, hd, ?_⟩
          intro j hj e' he'
          exact hmin (j + 1) (by omega) e' (by simpa using he')

/-- C3: `GetEventForWeekday` returns none when no plan exists, when the plan is not approved
(whatever the events are), and when every event of the weekday is deleted. -/
theorem C3_GetEventForWeekday_none (sm : ScheduleManager) (weekday : Int)
    (h : sm.current = none ∨
      ∃ cur, sm.current = some cur ∧
        (cur.Approved = false ∨ ∀ e ∈ cur.Events, e.Weekday = weekday → e.Deleted = true)) :
    sm.GetEventForWeekday weekday = none := by
  rcases h with h | ⟨cur, hcur, h | h⟩
  · simp [ScheduleManager.GetEventForWeekday, h]
  · simp [ScheduleManager.GetEventForWeekday, hcur, h]
  · simp only [ScheduleManager.GetEventForWeekday, hcur]
    split_ifs
    · exact eventForWeekday_eq_none.mpr h
    · rfl

/-- C4: on an approved plan `GetEventForWeekday` returns exactly the first event in plan
order with the requested weekday and the deleted flag false: it returns an event if and only
if such an event exists, and what it returns is at a position of the plan, has the weekday,
is not deleted, and no earlier position holds a non-deleted event of that weekday. -/
theorem C4_GetEventForWeekday_first (sm : ScheduleManager) (cur : WeekSchedule)
    (weekday : Int) (hcur : sm.current = some cur) (happ : cur.Approved = true) :
    ((∃ e, sm.GetEventForWeekday weekday = some e) ↔
      ∃ e ∈ cur.Events, e.Weekday = weekday ∧ e.Deleted = false) ∧
    (∀ e, sm.GetEventForWeekday weekday = some e ↔
      ∃ i : Nat, cur.Events[i]? = some e ∧ e.Weekday = weekday ∧ e.Deleted = false ∧
        ∀ j : Nat, j < i → ∀ e' : ScheduledEvent, cur.Events[j]? = some e' →
          ¬ (e'.Weekday = weekday ∧ e'.Deleted = false)) ∧
    sm.GetEventForWeekday weekday
      = cur.Events.find? (fun e => decide (e.Weekday = weekday) && !e.Deleted) := by
  have hget : sm.GetEventForWeekday weekday = eventForWeekday weekday cur.Events := by
    simp [ScheduleManager.GetEventForWeekday, hcur, happ]
  rw [hget]
  refine ⟨?_, fun e => eventForWeekday_eq_some, ?_⟩
  · constructor
    · rintro ⟨e, he⟩
      obtain ⟨i, hi, hw, hd, -⟩ := eventForWeekday_eq_some.mp he
      exact ⟨e, List.getElem?_mem hi, hw, hd⟩
    · rintro ⟨e, hmem, hw, hd⟩
      cases hres : eventForWeekday weekday cur.Events with
      | some e' => exact ⟨e', rfl⟩
      | none =>
        have := eventForWeekday_eq_none.mp hres e hmem hw
        simp [hd] at this
  · induction cur.Events with
    | nil => rfl
    | cons a l ih =>
      by_cases h : a.Weekday = weekday ∧ ¬ a.Deleted = true
      · have h2 : (decide (a.Weekday = weekday) && !a.Deleted) = true := by
          simp [h.1, h.2]
        rw [eventForWeekday_cons, if_pos h, List.find?, h2]
      · have h2 : (decide (a.Weekday = weekday) && !a.Deleted) = false := by
          by_cases hw : a.Weekday = weekday
          · have : a.Deleted = true := by by_contra hd; exact h ⟨hw, hd⟩
            simp [this]
          · simp [hw]
        rw [eventForWeekday_cons, if_neg h, List.find?, h2, ih]

/-- Witness for C3: the fresh week plan is not approved, so Monday has no event to act on
although the Monday event is there and not deleted. -/
theorem C3_GetEventForWeekday_none_witness :
    (NewScheduleManager.InitWeekSchedule.GetEvent "monday").map (fun e => e.Deleted)
        = some false ∧
      NewScheduleManager.InitWeekSchedule.GetEventForWeekday time.Monday = none :=
  ⟨by decide,
    C3_GetEventForWeekday_none NewScheduleManager.InitWeekSchedule time.Monday
      (Or.inr ⟨_, rfl, Or.inl rfl⟩)⟩

/-- Witness for C4: the approved default plan, asked for Tuesday. -/
theorem C4_GetEventForWeekday_first_witness :
    ∃ e, (NewScheduleManager.InitWeekSchedule.SetApproved true).GetEventForWeekday time.Tuesday
      = some e :=
  ((C4_GetEventForWeekday_first (NewScheduleManager.InitWeekSchedule.SetApproved true) _
      time.Tuesday rfl rfl).1).mpr
    ⟨_, List.mem_cons_of_mem _ (List.mem_cons_self _ _), by decide, by decide⟩

/-- C5: from every prior state `InitWeekSchedule` yields an unapproved plan with an empty edit
cursor, message reference 0 and exactly the events of the default template, in template
order and all non-deleted; a second call changes nothing, and nothing of the prior state
survives. -/
theorem C5_InitWeekSchedule_fresh (sm : ScheduleManager) :
    (∃ cur, sm.InitWeekSchedule.current = some cur ∧ cur.Approved = false ∧
      cur.EditingEventID = "" ∧ cur.EditingField = "" ∧ cur.MessageID = 0 ∧
      cur.Events = sm.GetDefaultEvents ∧ (∀ e ∈ cur.Events, e.Deleted = false) ∧
      cur.Events.map (fun e => e.ID) = ["monday", "tuesday", "wednesday"]) ∧
    sm.InitWeekSchedule.IsApproved = false ∧
    sm.InitWeekSchedule.GetEditingState = ("", "") ∧
    sm.InitWeekSchedule.GetMessageID = 0 ∧
    sm.InitWeekSchedule.InitWeekSchedule = sm.InitWeekSchedule ∧
    ∀ other : ScheduleManager, other.InitWeekSchedule = sm.InitWeekSchedule := by
  refine ⟨⟨_, rfl, rfl, rfl, rfl, rfl, rfl, ?_, rfl⟩, rfl, rfl, rfl, rfl, fun _ => rfl⟩
  intro e he
  simp only [ScheduleManager.GetDefaultEvents, List.mem_cons, List.mem_singleton,
    List.not_mem_nil, or_false] at he
  rcases he with rfl | rfl | rfl <;> rfl

/-- C6: the scenario from a fresh model.  After `InitWeekSchedule` the plan holds the three
non-deleted events of Monday, Tuesday and Wednesday and is not approved; after
`SetApproved(true)` Monday yields the `monday` event (limit 32, both rating ceilings 0, the
default Monday text) and Sunday yields none; after `DeleteEvent("monday")` Monday yields
none on the approved plan; after `RestoreEvent("monday")` it yields the same event again. -/
theorem C6_scenario :
    (NewScheduleManager.InitWeekSchedule.GetActiveEvents.map
          (fun e => (e.ID, e.Weekday, e.Deleted))
        = [("monday", time.Monday, false), ("tuesday", time.Tuesday, false),
            ("wednesday", time.Wednesday, false)] ∧
      (NewScheduleManager.InitWeekSchedule.GetCurrentSchedule.map
          (fun cur => cur.Events.length)) = some 3 ∧
      NewScheduleManager.InitWeekSchedule.IsApproved = false) ∧
    ((NewScheduleManager.InitWeekSchedule.SetApproved true).IsApproved = true ∧
      (NewScheduleManager.InitWeekSchedule.SetApproved true).GetEventForWeekday time.Monday
        = some ⟨"monday", "понедельник", time.Monday, 12, 21, 32, 0, 0,
            "запись на южный турнир открыта! нажмите /checkin чтобы записаться", false⟩ ∧
      (NewScheduleManager.InitWeekSchedule.SetApproved true).GetEventForWeekday time.Sunday
        = none) ∧
    (((NewScheduleManager.InitWeekSchedule.SetApproved true).DeleteEvent "monday").1 = true ∧
      ((NewScheduleManager.InitWeekSchedule.SetApproved true).DeleteEvent "monday").2.IsApproved
        = true ∧
      ((NewScheduleManager.InitWeekSchedule.SetApproved true).DeleteEvent
          "monday").2.GetEventForWeekday time.Monday = none) ∧
    ((((NewScheduleManager.InitWeekSchedule.SetApproved true).DeleteEvent
          "monday").2.RestoreEvent "monday").1 = true ∧
      (((NewScheduleManager.InitWeekSchedule.SetApproved true).DeleteEvent
          "monday").2.RestoreEvent "monday").2.GetEventForWeekday time.Monday
        = some ⟨"monday", "понедельник", time.Monday, 12, 21, 32, 0, 0,
            "запись на южный турнир открыта! нажмите /checkin чтобы записаться", false⟩) := by
  decide

/-! ### `UpdateEventField` -/

/-- An event with the ID exists exactly when the lookup loop stops at some position: the
first one that holds the ID. -/
theorem exists_first_of_mem {eventID : String} {l : List ScheduledEvent}
    (h : ∃ e ∈ l, e.ID = eventID) :
    ∃ (i : Nat) (e : ScheduledEvent), eventIndex eventID l = some i ∧ l[i]? = some e ∧
      e.ID = eventID ∧ ∀ j : Nat, j < i → ∀ e' : ScheduledEvent, l[j]? = some e' →
        e'.ID ≠ eventID := by
  cases hidx : eventIndex eventID l with
  | none =>
    obtain ⟨e, hmem, hid⟩ := h
    exact absurd hid (eventIndex_eq_none.mp hidx e hmem)
  | some i =>
    obtain ⟨e, he, hid, hmin⟩ := eventIndex_eq_some.mp hidx
    exact ⟨i, e, rfl, he, hid, hmin⟩

/-- What `UpdateEventField` does once the event is found, by field name and dynamic type. -/
theorem UpdateEventField_found (sm : ScheduleManager) (cur : WeekSchedule)
    (eventID field : String) (value : Value) (i : Nat) (e : ScheduledEvent)
    (hcur : sm.current = some cur) (hidx : eventIndex eventID cur.Events = some i)
    (he : cur.Events[i]? = some e) :
    sm.UpdateEventField eventID field value =
      if field = "limit" then
        match value with
        | .int v => (none, ⟨some { cur with Events := cur.Events.set i { e with Limit := v } }⟩)
        | _ => (some (.InvalidValue "limit"), sm)
      else if field = "lichess_limit" then
        match value with
        | .int v =>
          (none, ⟨some { cur with Events := cur.Events.set i { e with LichessLimit := v } }⟩)
        | _ => (some (.InvalidValue "lichess_limit"), sm)
      else if field = "chesscom_limit" then
        match value with
        | .int v =>
          (none, ⟨some { cur with Events := cur.Events.set i { e with ChesscomLimit := v } }⟩)
        | _ => (some (.InvalidValue "chesscom_limit"), sm)
      else if field = "intro" then
        match value with
        | .string v => (none, ⟨some { cur with Events := cur.Events.set i { e with Intro := v } }⟩)
        | _ => (some (.InvalidValue "intro"), sm)
      else (some (.UnknownField field), sm) := by
  simp only [ScheduleManager.UpdateEventField, hcur, hidx]
  split_ifs <;> cases value <;> simp only [modify_eq_set he]

/-- C8: the outcome of `UpdateEventField`, for all inputs: `Uninitialized` without a plan;
otherwise `EventNotFound` when no event has the ID; otherwise `UnknownField` when the field
is none of `limit`, `lichess_limit`, `chesscom_limit`, `intro`; otherwise `InvalidValue` when
the value is not an `int` for a numeric field or not a `string` for `intro`; and nil in every
remaining case. -/
theorem C8_UpdateEventField_classification (sm : ScheduleManager) (eventID field : String)
    (value : Value) :
    (sm.current = none →
      (sm.UpdateEventField eventID field value).1 = some .Uninitialized) ∧
    (∀ cur, sm.current = some cur →
      ((∀ e ∈ cur.Events, e.ID ≠ eventID) →
        (sm.UpdateEventField eventID field value).1 = some (.EventNotFound eventID)) ∧
      ((∃ e ∈ cur.Events, e.ID = eventID) →
        (field ∉ ["limit", "lichess_limit", "chesscom_limit", "intro"] →
          (sm.UpdateEventField eventID field value).1 = some (.UnknownField field)) ∧
        (field ∈ ["limit", "lichess_limit", "chesscom_limit"] → (∀ v, value ≠ .int v) →
          (sm.UpdateEventField eventID field value).1 = some (.InvalidValue field)) ∧
        (field = "intro" → (∀ v, value ≠ .string v) →
          (sm.UpdateEventField eventID field value).1 = some (.InvalidValue field)) ∧
        (field ∈ ["limit", "lichess_limit", "chesscom_limit"] → (∃ v, value = .int v) →
          (sm.UpdateEventField eventID field value).1 = none) ∧
        (field = "intro" → (∃ v, value = .string v) →
          (sm.UpdateEventField eventID field value).1 = none))) := by
  refine ⟨fun h => by simp [ScheduleManager.UpdateEventField, h], fun cur hcur => ⟨?_, ?_⟩⟩
  · intro hno
    simp [ScheduleManager.UpdateEventField, hcur, eventIndex_eq_none.mpr hno]
  · intro hex
    obtain ⟨i, e, hidx, he, -, -⟩ := exists_first_of_mem hex
    rw [UpdateEventField_found sm cur eventID field value i e hcur hidx he]
    simp only [List.mem_cons, List.mem_singleton, List.not_mem_nil, or_false, not_or]
    refine ⟨?_, ?_, ?_, ?_, ?_⟩
    · rintro ⟨h1, h2, h3, h4⟩
      simp [h1, h2, h3, h4]
    · rintro (h | h | h) hv <;> subst h <;> cases value <;> simp at hv ⊢
    · rintro h hv
      subst h
      cases value <;> simp at hv ⊢
    · rintro (h | h | h) ⟨v, hv⟩ <;> subst h <;> subst hv <;> simp
    · rintro h ⟨v, hv⟩
      subst h; subst hv
      simp

/-! ### `DeleteEvent` followed by `RestoreEvent` -/

/-- C10: for an event ID present in the plan, `DeleteEvent(id)` followed by `RestoreEvent(id)`
both return true and leave the plan as it was except that the first event with the ID has
its deleted flag false: its other fields, every other event, the approved flag, the message
reference and the edit cursor are unchanged. -/
theorem C10_delete_restore_frame (sm : ScheduleManager) (cur : WeekSchedule)
    (eventID : String) (hcur : sm.current = some cur)
    (hex : ∃ e ∈ cur.Events, e.ID = eventID) :
    ∃ (i : Nat) (e : ScheduledEvent), cur.Events[i]? = some e ∧ e.ID = eventID ∧
      (∀ j : Nat, j < i → ∀ e' : ScheduledEvent, cur.Events[j]? = some e' →
        e'.ID ≠ eventID) ∧
      (sm.DeleteEvent eventID).1 = true ∧
      ((sm.DeleteEvent eventID).2.RestoreEvent eventID).1 = true ∧
      ((sm.DeleteEvent eventID).2.RestoreEvent eventID).2.current
        = some { cur with Events := cur.Events.set i { e with Deleted := false } } := by
  obtain ⟨i, e, hidx, he, hid, hmin⟩ := exists_first_of_mem hex
  refine ⟨i, e, he, hid, hmin, ?_⟩
  have hidx2 : eventIndex eventID
      (cur.Events.modify (fun e => { e with Deleted := true }) i) = some i :=
    (eventIndex_modify (fun e => { e with Deleted := true }) (fun _ => rfl) eventID
      cur.Events i).trans hidx
  have hdel : sm.DeleteEvent eventID = (true, ⟨some { cur with
      Events := cur.Events.modify (fun e => { e with Deleted := true }) i }⟩) := by
    simp only [ScheduleManager.DeleteEvent, hcur, hidx]
  rw [hdel]
  simp only [ScheduleManager.RestoreEvent, hidx2, modify_modify_same]
  rw [modify_eq_set he]
  exact ⟨trivial, trivial, rfl⟩

/-- Witness for C10: the Tuesday event of the default plan, deleted and restored. -/
theorem C10_delete_restore_frame_witness :
    (∃ e ∈ (NewScheduleManager.GetDefaultEvents), e.ID = "tuesday") ∧
    ∃ (i : Nat) (e : ScheduledEvent), e.ID = "tuesday" ∧
      ((NewScheduleManager.InitWeekSchedule.DeleteEvent "tuesday").2.RestoreEvent
          "tuesday").2.current
        = some { Events := NewScheduleManager.GetDefaultEvents.set i { e with Deleted := false }
                 Approved := false
                 MessageID := 0
                 EditingEventID := ""
                 EditingField := "" } :=
  ⟨⟨_, List.mem_cons_of_mem _ (List.mem_cons_self _ _), rfl⟩,
    let ⟨i, e, _, hid, _, _, _, h⟩ :=
      C10_delete_restore_frame NewScheduleManager.InitWeekSchedule _ "tuesday" rfl
        ⟨_, List.mem_cons_of_mem _ (List.mem_cons_self _ _), rfl⟩
    ⟨i, e, hid, h⟩⟩

end cron

namespace admingroup

open cron bot

/-- The handler when the message has text, the cursor is set, and the field is numeric. -/
theorem handleScheduleFieldInput_numeric (approveEmoji : String) (sm : ScheduleManager)
    (cur : WeekSchedule) (message : Message) (v : Int)
    (hcur : sm.current = some cur) (hset : cur.EditingEventID ≠ "")
    (hnum : cur.EditingField = "limit" ∨ cur.EditingField = "lichess_limit" ∨
      cur.EditingField = "chesscom_limit")
    (hparse : strconv.Atoi (strings.TrimSpace message.Text) = some v) :
    handleScheduleFieldInput approveEmoji sm ⟨some message⟩ =
      if v < 0 then (sm, [.SendMessage message.ChatID "число должно быть положительным"])
      else storeFieldInput approveEmoji sm message cur.EditingEventID cur.EditingField
        (.int v) := by
  have hne : strings.TrimSpace message.Text ≠ "" := by
    intro h
    rw [h] at hparse
    simp [strconv.Atoi] at hparse
  have hf : cur.EditingField ≠ "" := by
    rcases hnum with h | h | h <;> rw [h] <;> decide
  simp only [handleScheduleFieldInput, ScheduleManager.GetEditingState, hcur, hset, hf, hne,
    hnum, hparse, or_self, if_false, if_true]

/-- The counterexample to C7 as stated: on the fresh default plan
`UpdateEventField("monday", "limit", -3)` returns nil and the Monday limit, 32 before the
call, is -3 after it. -/
theorem C7_counterexample :
    (NewScheduleManager.InitWeekSchedule.GetEvent "monday").map (fun e => e.Limit)
        = some 32 ∧
    (NewScheduleManager.InitWeekSchedule.UpdateEventField "monday" "limit" (.int (-3))).1
        = none ∧
    ((NewScheduleManager.InitWeekSchedule.UpdateEventField "monday" "limit"
        (.int (-3))).2.GetEvent "monday").map (fun e => e.Limit) = some (-3) := by
  decide

/-- C7, amended: `UpdateEventField` has no sign check: for an existing event ID and a negative
`v`, `UpdateEventField(id, "limit", v)` returns nil and stores `v` as the limit of the first
event with the ID.  The rejection is made by `handleScheduleFieldInput`: with the cursor on
`(id, "limit")`, text that parses to the negative `v` is answered with the rejection message
and the manager, hence the prior limit, is unchanged. -/
theorem C7_negative_limit_rejected_by_handler (sm : ScheduleManager) (cur : WeekSchedule)
    (eventID : String) (v : Int) (hcur : sm.current = some cur)
    (hex : ∃ e ∈ cur.Events, e.ID = eventID) (hv : v < 0) :
    (∃ (i : Nat) (e : ScheduledEvent), cur.Events[i]? = some e ∧ e.ID = eventID ∧
      (∀ j : Nat, j < i → ∀ e' : ScheduledEvent, cur.Events[j]? = some e' →
        e'.ID ≠ eventID) ∧
      sm.UpdateEventField eventID "limit" (.int v)
        = (none, ⟨some { cur with Events := cur.Events.set i { e with Limit := v } }⟩)) ∧
    (∀ (approveEmoji : String) (message : Message),
      cur.EditingEventID = eventID → cur.EditingField = "limit" → eventID ≠ "" →
      strconv.Atoi (strings.TrimSpace message.Text) = some v →
      handleScheduleFieldInput approveEmoji sm ⟨some message⟩
        = (sm, [.SendMessage message.ChatID "число должно быть положительным"])) := by
  constructor
  · obtain ⟨i, e, hidx, he, hid, hmin⟩ := exists_first_of_mem hex
    refine ⟨i, e, he, hid, hmin, ?_⟩
    rw [UpdateEventField_found sm cur eventID "limit" (.int v) i e hcur hidx he]
    simp
  · intro approveEmoji message h1 h2 h3 h4
    rw [handleScheduleFieldInput_numeric approveEmoji sm cur message v hcur (h1 ▸ h3)
      (Or.inl h2) h4, if_pos hv]

/-- Witness for the amended C7: the default plan with the cursor on the Monday limit and the
text "-3". -/
theorem C7_negative_limit_rejected_by_handler_witness :
    ((-3 : Int) < 0) ∧
    handleScheduleFieldInput "+" (NewScheduleManager.InitWeekSchedule.SetEditingEvent "monday"
        "limit") ⟨some ⟨7, 8, "-3"⟩⟩
      = (NewScheduleManager.InitWeekSchedule.SetEditingEvent "monday" "limit",
          [.SendMessage 7 "число должно быть положительным"]) :=
  ⟨by decide,
    (C7_negative_limit_rejected_by_handler
      (NewScheduleManager.InitWeekSchedule.SetEditingEvent "monday" "limit") _ "monday" (-3)
      rfl ⟨_, List.mem_cons_self _ _, rfl⟩ (by decide)).2 "+" ⟨7, 8, "-3"⟩ rfl rfl
      (by decide) (by decide)⟩

/-- The handler after its `switch`, when the event exists and the value is an `int` for a
numeric field: the value is stored, the cursor cleared, and the reaction is the last call. -/
theorem storeFieldInput_int (approveEmoji : String) (sm : ScheduleManager) (cur : WeekSchedule)
    (message : Message) (eventID field : String) (v : Int) (i : Nat) (e : ScheduledEvent)
    (hcur : sm.current = some cur) (hidx : eventIndex eventID cur.Events = some i)
    (he : cur.Events[i]? = some e)
    (hnum : field = "limit" ∨ field = "lichess_limit" ∨ field = "chesscom_limit") :
    (storeFieldInput approveEmoji sm message eventID field (.int v)).1.current
      = some { cur with
          Events := cur.Events.set i
            (if field = "limit" then { e with Limit := v }
             else if field = "lichess_limit" then { e with LichessLimit := v }
             else { e with ChesscomLimit := v })
          EditingEventID := ""
          EditingField := "" } ∧
    (storeFieldInput approveEmoji sm message eventID field (.int v)).2.getLast?
      = some (.GiveReaction message.ChatID message.MessageID approveEmoji) := by
  simp only [storeFieldInput,
    UpdateEventField_found sm cur eventID field (.int v) i e hcur hidx he]
  rcases hnum with h | h | h <;> subst h <;>
    simp [ScheduleManager.ClearEditingState, List.getLast?_append]

/-- C9: with the edit cursor on an existing event and a numeric field, free text handled by
`handleScheduleFieldInput` that parses to a negative number is rejected with the manager
unchanged (cursor still set, field value unchanged); text that parses to a non-negative
number is stored in that field of the first event with the ID, the cursor is cleared and the
message gets the approving reaction.  The texts "-3" and "40" parse to -3 and 40. -/
theorem C9_field_input (approveEmoji : String) (sm : ScheduleManager) (cur : WeekSchedule)
    (message : Message) (hcur : sm.current = some cur) (hset : cur.EditingEventID ≠ "")
    (hnum : cur.EditingField = "limit" ∨ cur.EditingField = "lichess_limit" ∨
      cur.EditingField = "chesscom_limit")
    (hex : ∃ e ∈ cur.Events, e.ID = cur.EditingEventID) :
    (∀ v : Int, strconv.Atoi (strings.TrimSpace message.Text) = some v → v < 0 →
      handleScheduleFieldInput approveEmoji sm ⟨some message⟩
          = (sm, [.SendMessage message.ChatID "число должно быть положительным"]) ∧
        sm.GetEditingState = (cur.EditingEventID, cur.EditingField)) ∧
    (∀ v : Int, strconv.Atoi (strings.TrimSpace message.Text) = some v → 0 ≤ v →
      ∃ (i : Nat) (e : ScheduledEvent), cur.Events[i]? = some e ∧
        e.ID = cur.EditingEventID ∧
        (∀ j : Nat, j < i → ∀ e' : ScheduledEvent, cur.Events[j]? = some e' →
          e'.ID ≠ cur.EditingEventID) ∧
        (handleScheduleFieldInput approveEmoji sm ⟨some message⟩).1.current
          = some { cur with
              Events := cur.Events.set i
                (if cur.EditingField = "limit" then { e with Limit := v }
                 else if cur.EditingField = "lichess_limit" then { e with LichessLimit := v }
                 else { e with ChesscomLimit := v })
              EditingEventID := ""
              EditingField := "" } ∧
        (handleScheduleFieldInput approveEmoji sm ⟨some message⟩).1.GetEditingState
          = ("", "") ∧
        (handleScheduleFieldInput approveEmoji sm ⟨some message⟩).2.getLast?
          = some (.GiveReaction message.ChatID message.MessageID approveEmoji)) ∧
    strconv.Atoi (strings.TrimSpace "-3") = some (-3) ∧
    strconv.Atoi (strings.TrimSpace "40") = some 40 := by
  refine ⟨?_, ?_, by decide, by decide⟩
  · intro v hparse hv
    rw [handleScheduleFieldInput_numeric approveEmoji sm cur message v hcur hset hnum hparse,
      if_pos hv]
    simp [ScheduleManager.GetEditingState, hcur]
  · intro v hparse hv
    obtain ⟨i, e, hidx, he, hid, hmin⟩ := exists_first_of_mem hex
    have hstore := storeFieldInput_int approveEmoji sm cur message cur.EditingEventID
      cur.EditingField v i e hcur hidx he hnum
    rw [handleScheduleFieldInput_numeric approveEmoji sm cur message v hcur hset hnum hparse,
      if_neg (by omega)]
    refine ⟨i, e, he, hid, hmin, hstore.1, ?_, hstore.2⟩
    simp [ScheduleManager.GetEditingState, hstore.1]

/-- Witness for C9: the default plan with the cursor on the Tuesday limit and the text "40":
the Tuesday limit becomes 40 and the cursor is cleared. -/
theorem C9_field_input_witness :
    ((handleScheduleFieldInput "+"
        (NewScheduleManager.InitWeekSchedule.SetEditingEvent "tuesday" "limit")
        ⟨some ⟨7, 8, "40"⟩⟩).1.GetEvent "tuesday").map (fun e => e.Limit) = some 40 ∧
    (handleScheduleFieldInput "+"
        (NewScheduleManager.InitWeekSchedule.SetEditingEvent "tuesday" "limit")
        ⟨some ⟨7, 8, "40"⟩⟩).1.GetEditingState = ("", "") :=
  let ⟨_, _, _, _, _, _, hstate, _⟩ :=
    (C9_field_input "+" (NewScheduleManager.InitWeekSchedule.SetEditingEvent "tuesday" "limit")
      _ ⟨7, 8, "40"⟩ rfl (by decide) (Or.inl rfl)
      ⟨_, List.mem_cons_of_mem _ (List.mem_cons_self _ _), rfl⟩).2.1 40 (by decide)
      (by decide)
  ⟨by decide, hstate⟩

end admingroup

namespace cron

/-! ### `DeleteEvent` and `RestoreEvent`: results and idempotence -/

/-- The element a pointer update leaves at the position it updates. -/
theorem getElem?_modify_self (f : ScheduledEvent → ScheduledEvent) {l : List ScheduledEvent}
    {i : Nat} {e : ScheduledEvent} (he : l[i]? = some e) :
    (l.modify f i)[i]? = some (f e) := by
  rw [List.getElem?_modify, he]
  simp

/-- Writing back the element a position already holds changes nothing. -/
theorem set_same {l : List ScheduledEvent} {i : Nat} {e : ScheduledEvent}
    (he : l[i]? = some e) : l.set i e = l := by
  induction l generalizing i with
  | nil => rfl
  | cons a l ih =>
    cases i with
    | zero => simp at he; subst he; rfl
    | succ k => simp at he; simp [ih he]

/-- What the two flag setters do, by what the lookup loop finds. -/
theorem DeleteEvent_cases (sm : ScheduleManager) (eventID : String) :
    (sm.current = none ∧ sm.DeleteEvent eventID = (false, sm)) ∨
    (∃ cur, sm.current = some cur ∧ (∀ e ∈ cur.Events, e.ID ≠ eventID) ∧
      sm.DeleteEvent eventID = (false, sm)) ∨
    (∃ (cur : WeekSchedule) (i : Nat) (e : ScheduledEvent), sm.current = some cur ∧
      eventIndex eventID cur.Events = some i ∧ cur.Events[i]? = some e ∧ e.ID = eventID ∧
      sm.DeleteEvent eventID = (true, ⟨some { cur with
        Events := cur.Events.modify (fun e => { e with Deleted := true }) i }⟩)) := by
  cases hcur : sm.current with
  | none => exact Or.inl ⟨rfl, by simp [ScheduleManager.DeleteEvent, hcur]⟩
  | some cur =>
    cases hidx : eventIndex eventID cur.Events with
    | none =>
      exact Or.inr (Or.inl ⟨cur, rfl, eventIndex_eq_none.mp hidx,
        by simp [ScheduleManager.DeleteEvent, hcur, hidx]⟩)
    | some i =>
      obtain ⟨e, he, hid, -⟩ := eventIndex_eq_some.mp hidx
      exact Or.inr (Or.inr ⟨cur, i, e, rfl, hidx, he, hid,
        by simp [ScheduleManager.DeleteEvent, hcur, hidx]⟩)

theorem RestoreEvent_cases (sm : ScheduleManager) (eventID : String) :
    (sm.current = none ∧ sm.RestoreEvent eventID = (false, sm)) ∨
    (∃ cur, sm.current = some cur ∧ (∀ e ∈ cur.Events, e.ID ≠ eventID) ∧
      sm.RestoreEvent eventID = (false, sm)) ∨
    (∃ (cur : WeekSchedule) (i : Nat) (e : ScheduledEvent), sm.current = some cur ∧
      eventIndex eventID cur.Events = some i ∧ cur.Events[i]? = some e ∧ e.ID = eventID ∧
      sm.RestoreEvent eventID = (true, ⟨some { cur with
        Events := cur.Events.modify (fun e => { e with Deleted := false }) i }⟩)) := by
  cases hcur : sm.current with
  | none => exact Or.inl ⟨rfl, by simp [ScheduleManager.RestoreEvent, hcur]⟩
  | some cur =>
    cases hidx : eventIndex eventID cur.Events with
    | none =>
      exact Or.inr (Or.inl ⟨cur, rfl, eventIndex_eq_none.mp hidx,
        by simp [ScheduleManager.RestoreEvent, hcur, hidx]⟩)
    | some i =>
      obtain ⟨e, he, hid, -⟩ := eventIndex_eq_some.mp hidx
      exact Or.inr (Or.inr ⟨cur, i, e, rfl, hidx, he, hid,
        by simp [ScheduleManager.RestoreEvent, hcur, hidx]⟩)

/-- After a flag is set through the pointer the lookup loop found, the first event with the
ID is the updated one. -/
theorem first_after_flag (b : Bool) {eventID : String} {l : List ScheduledEvent} {i : Nat}
    (hidx : eventIndex eventID l = some i) :
    ∃ e : ScheduledEvent, (l.modify (fun e => { e with Deleted := b }) i)[i]? = some e ∧
      e.ID = eventID ∧ e.Deleted = b ∧
      ∀ j : Nat, j < i → ∀ e' : ScheduledEvent,
        (l.modify (fun e => { e with Deleted := b }) i)[j]? = some e' → e'.ID ≠ eventID := by
  have hidx2 := (eventIndex_modify (fun e => { e with Deleted := b }) (fun _ => rfl) eventID
    l i).trans hidx
  obtain ⟨e, he, -, -⟩ := eventIndex_eq_some.mp hidx
  obtain ⟨e2, he2, hid2, hmin2⟩ := eventIndex_eq_some.mp hidx2
  have := getElem?_modify_self (fun e => { e with Deleted := b }) he
  rw [this] at he2
  refine ⟨e2, by rw [this, he2], hid2, ?_, hmin2⟩
  cases he2
  rfl

/-- C11: `DeleteEvent(id)` and `RestoreEvent(id)` return false if and only if no plan exists
or no event of the plan has the ID; when they return false the manager is unchanged; when
they return true the first event with the ID has `Deleted = true` (respectively false)
afterwards. -/
theorem C11_delete_restore_result (sm : ScheduleManager) (eventID : String) :
    (((sm.DeleteEvent eventID).1 = false ↔
        (sm.current = none ∨
          ∃ cur, sm.current = some cur ∧ ∀ e ∈ cur.Events, e.ID ≠ eventID)) ∧
      ((sm.DeleteEvent eventID).1 = false → (sm.DeleteEvent eventID).2 = sm) ∧
      ((sm.DeleteEvent eventID).1 = true →
        ∃ (cur : WeekSchedule) (i : Nat) (e : ScheduledEvent),
          (sm.DeleteEvent eventID).2.current = some cur ∧ cur.Events[i]? = some e ∧
          e.ID = eventID ∧ e.Deleted = true ∧
          ∀ j : Nat, j < i → ∀ e' : ScheduledEvent, cur.Events[j]? = some e' →
            e'.ID ≠ eventID)) ∧
    (((sm.RestoreEvent eventID).1 = false ↔
        (sm.current = none ∨
          ∃ cur, sm.current = some cur ∧ ∀ e ∈ cur.Events, e.ID ≠ eventID)) ∧
      ((sm.RestoreEvent eventID).1 = false → (sm.RestoreEvent eventID).2 = sm) ∧
      ((sm.RestoreEvent eventID).1 = true →
        ∃ (cur : WeekSchedule) (i : Nat) (e : ScheduledEvent),
          (sm.RestoreEvent eventID).2.current = some cur ∧ cur.Events[i]? = some e ∧
          e.ID = eventID ∧ e.Deleted = false ∧
          ∀ j : Nat, j < i → ∀ e' : ScheduledEvent, cur.Events[j]? = some e' →
            e'.ID ≠ eventID)) := by
  constructor
  · rcases DeleteEvent_cases sm eventID with ⟨hcur, hres⟩ | ⟨cur, hcur, hno, hres⟩ |
      ⟨cur, i, e, hcur, hidx, he, hid, hres⟩
    · rw [hres]
      exact ⟨⟨fun _ => Or.inl hcur, fun _ => rfl⟩, fun _ => rfl, fun h => by simp at h⟩
    · rw [hres]
      exact ⟨⟨fun _ => Or.inr ⟨cur, hcur, hno⟩, fun _ => rfl⟩, fun _ => rfl,
        fun h => by simp at h⟩
    · rw [hres]
      refine ⟨⟨fun h => by simp at h, ?_⟩, fun h => by simp at h, fun _ => ?_⟩
      · rintro (h | ⟨cur2, hcur2, hno⟩)
        · rw [hcur] at h; simp at h
        · rw [hcur] at hcur2
          cases hcur2
          exact absurd hid (hno e (List.getElem?_mem he))
      · obtain ⟨e2, he2, hid2, hd2, hmin2⟩ := first_after_flag true hidx
        exact ⟨_, i, e2, rfl, he2, hid2, hd2, hmin2⟩
  · rcases RestoreEvent_cases sm eventID with ⟨hcur, hres⟩ | ⟨cur, hcur, hno, hres⟩ |
      ⟨cur, i, e, hcur, hidx, he, hid, hres⟩
    · rw [hres]
      exact ⟨⟨fun _ => Or.inl hcur, fun _ => rfl⟩, fun _ => rfl, fun h => by simp at h⟩
    · rw [hres]
      exact ⟨⟨fun _ => Or.inr ⟨cur, hcur, hno⟩, fun _ => rfl⟩, fun _ => rfl,
        fun h => by simp at h⟩
    · rw [hres]
      refine ⟨⟨fun h => by simp at h, ?_⟩, fun h => by simp at h, fun _ => ?_⟩
      · rintro (h | ⟨cur2, hcur2, hno⟩)
        · rw [hcur] at h; simp at h
        · rw [hcur] at hcur2
          cases hcur2
          exact absurd hid (hno e (List.getElem?_mem he))
      · obtain ⟨e2, he2, hid2, hd2, hmin2⟩ := first_after_flag false hidx
        exact ⟨_, i, e2, rfl, he2, hid2, hd2, hmin2⟩

end cron

namespace cron

/-- C12: `DeleteEvent` and `RestoreEvent` are idempotent.  For every manager and ID, a second
call leaves the manager as the first call left it and returns what the first call returned,
so it still returns true whenever the ID is in the plan; and on an event that is already
deleted (respectively not deleted) the call returns true and changes nothing. -/
theorem C12_delete_restore_idempotent (sm : ScheduleManager) (eventID : String) :
    (((sm.DeleteEvent eventID).2.DeleteEvent eventID).2 = (sm.DeleteEvent eventID).2 ∧
      ((sm.DeleteEvent eventID).2.DeleteEvent eventID).1 = (sm.DeleteEvent eventID).1 ∧
      ((∃ cur, sm.current = some cur ∧ ∃ e ∈ cur.Events, e.ID = eventID) →
        ((sm.DeleteEvent eventID).2.DeleteEvent eventID).1 = true) ∧
      (∀ (cur : WeekSchedule) (i : Nat) (e : ScheduledEvent), sm.current = some cur →
        cur.Events[i]? = some e → e.ID = eventID →
        (∀ j : Nat, j < i → ∀ e' : ScheduledEvent, cur.Events[j]? = some e' →
          e'.ID ≠ eventID) →
        e.Deleted = true → sm.DeleteEvent eventID = (true, sm))) ∧
    (((sm.RestoreEvent eventID).2.RestoreEvent eventID).2 = (sm.RestoreEvent eventID).2 ∧
      ((sm.RestoreEvent eventID).2.RestoreEvent eventID).1 = (sm.RestoreEvent eventID).1 ∧
      ((∃ cur, sm.current = some cur ∧ ∃ e ∈ cur.Events, e.ID = eventID) →
        ((sm.RestoreEvent eventID).2.RestoreEvent eventID).1 = true) ∧
      (∀ (cur : WeekSchedule) (i : Nat) (e : ScheduledEvent), sm.current = some cur →
        cur.Events[i]? = some e → e.ID = eventID →
        (∀ j : Nat, j < i → ∀ e' : ScheduledEvent, cur.Events[j]? = some e' →
          e'.ID ≠ eventID) →
        e.Deleted = false → sm.RestoreEvent eventID = (true, sm))) := by
  constructor
  · have hnoop : ∀ (cur : WeekSchedule) (i : Nat) (e : ScheduledEvent),
        sm.current = some cur → cur.Events[i]? = some e → e.ID = eventID →
        (∀ j : Nat, j < i → ∀ e' : ScheduledEvent, cur.Events[j]? = some e' →
          e'.ID ≠ eventID) →
        e.Deleted = true → sm.DeleteEvent eventID = (true, sm) := by
      intro cur i e hcur he hid hmin hdel
      have hidx : eventIndex eventID cur.Events = some i :=
        eventIndex_eq_some.mpr ⟨e, he, hid, hmin⟩
      have hset : cur.Events.modify (fun e => { e with Deleted := true }) i = cur.Events := by
        rw [modify_eq_set he]
        have : ({ e with Deleted := true } : ScheduledEvent) = e := by
          cases e; simp_all
        rw [this]
        exact set_same he
      simp only [ScheduleManager.DeleteEvent, hcur, hidx, hset]
      cases sm
      simp_all
    rcases DeleteEvent_cases sm eventID with ⟨hcur, hres⟩ | ⟨cur, hcur, hno, hres⟩ |
      ⟨cur, i, e, hcur, hidx, he, hid, hres⟩
    · refine ⟨by rw [hres]; simp [hres], by rw [hres]; simp [hres], ?_, hnoop⟩
      rintro ⟨cur, hc, -⟩
      rw [hcur] at hc; simp at hc
    · refine ⟨by rw [hres]; simp [hres], by rw [hres]; simp [hres], ?_, hnoop⟩
      rintro ⟨cur2, hc, e, hmem, hid⟩
      rw [hcur] at hc
      cases hc
      exact absurd hid (hno e hmem)
    · have hidx2 := (eventIndex_modify (fun e => { e with Deleted := true }) (fun _ => rfl)
        eventID cur.Events i).trans hidx
      have h2 : (sm.DeleteEvent eventID).2.DeleteEvent eventID
          = (true, (sm.DeleteEvent eventID).2) := by
        rw [hres]
        simp only [ScheduleManager.DeleteEvent, hidx2, modify_modify_same]
      rw [h2, hres]
      exact ⟨rfl, rfl, fun _ => rfl, hres ▸ hnoop⟩
  · have hnoop : ∀ (cur : WeekSchedule) (i : Nat) (e : ScheduledEvent),
        sm.current = some cur → cur.Events[i]? = some e → e.ID = eventID →
        (∀ j : Nat, j < i → ∀ e' : ScheduledEvent, cur.Events[j]? = some e' →
          e'.ID ≠ eventID) →
        e.Deleted = false → sm.RestoreEvent eventID = (true, sm) := by
      intro cur i e hcur he hid hmin hdel
      have hidx : eventIndex eventID cur.Events = some i :=
        eventIndex_eq_some.mpr ⟨e, he, hid, hmin⟩
      have hset : cur.Events.modify (fun e => { e with Deleted := false }) i = cur.Events := by
        rw [modify_eq_set he]
        have : ({ e with Deleted := false } : ScheduledEvent) = e := by
          cases e; simp_all
        rw [this]
        exact set_same he
      simp only [ScheduleManager.RestoreEvent, hcur, hidx, hset]
      cases sm
      simp_all
    rcases RestoreEvent_cases sm eventID with ⟨hcur, hres⟩ | ⟨cur, hcur, hno, hres⟩ |
      ⟨cur, i, e, hcur, hidx, he, hid, hres⟩
    · refine ⟨by rw [hres]; simp [hres], by rw [hres]; simp [hres], ?_, hnoop⟩
      rintro ⟨cur, hc, -⟩
      rw [hcur] at hc; simp at hc
    · refine ⟨by rw [hres]; simp [hres], by rw [hres]; simp [hres], ?_, hnoop⟩
      rintro ⟨cur2, hc, e, hmem, hid⟩
      rw [hcur] at hc
      cases hc
      exact absurd hid (hno e hmem)
    · have hidx2 := (eventIndex_modify (fun e => { e with Deleted := false }) (fun _ => rfl)
        eventID cur.Events i).trans hidx
      have h2 : (sm.RestoreEvent eventID).2.RestoreEvent eventID
          = (true, (sm.RestoreEvent eventID).2) := by
        rw [hres]
        simp only [ScheduleManager.RestoreEvent, hidx2, modify_modify_same]
      rw [h2, hres]
      exact ⟨rfl, rfl, fun _ => rfl, hres ▸ hnoop⟩

end cron

namespace cron

/-! ### The shape of the plan is fixed by the template -/

/-- An update through a pointer that keeps the ID, the weekday and the hours keeps the list
of these. -/
theorem map_modify_fixed (f : ScheduledEvent → ScheduledEvent)
    (hf : ∀ e, ((f e).ID, (f e).Weekday, (f e).StartHour, (f e).EndHour)
      = (e.ID, e.Weekday, e.StartHour, e.EndHour))
    (l : List ScheduledEvent) (i : Nat) :
    (l.modify f i).map (fun e => (e.ID, e.Weekday, e.StartHour, e.EndHour))
      = l.map (fun e => (e.ID, e.Weekday, e.StartHour, e.EndHour)) := by
  induction l generalizing i with
  | nil => simp [List.modify_nil]
  | cons a l ih =>
    cases i with
    | zero => rw [List.modify_zero_cons]; simp only [List.map_cons, hf]
    | succ k => rw [List.modify_succ_cons]; simp only [List.map_cons, ih]

/-- No call on the manager removes the plan or changes the IDs, weekdays and hours of its
events. -/
theorem Op.apply_fixed (sm : ScheduleManager) (op : Op) (cur : WeekSchedule)
    (hcur : sm.current = some cur) :
    ∃ cur', (op.apply sm).current = some cur' ∧
      cur'.Events.map (fun e => (e.ID, e.Weekday, e.StartHour, e.EndHour))
        = cur.Events.map (fun e => (e.ID, e.Weekday, e.StartHour, e.EndHour)) := by
  cases op with
  | SetApproved approved =>
    simp only [Op.apply, ScheduleManager.SetApproved, hcur]
    exact ⟨_, rfl, rfl⟩
  | SetMessageID messageID =>
    simp only [Op.apply, ScheduleManager.SetMessageID, hcur]
    exact ⟨_, rfl, rfl⟩
  | SetEditingEvent eventID field =>
    simp only [Op.apply, ScheduleManager.SetEditingEvent, hcur]
    exact ⟨_, rfl, rfl⟩
  | ClearEditingState =>
    simp only [Op.apply, ScheduleManager.ClearEditingState, hcur]
    exact ⟨_, rfl, rfl⟩
  | DeleteEvent eventID =>
    simp only [Op.apply, ScheduleManager.DeleteEvent, hcur]
    cases eventIndex eventID cur.Events with
    | none => exact ⟨cur, hcur, rfl⟩
    | some i =>
      refine ⟨_, rfl, ?_⟩
      apply map_modify_fixed
      intro e
      rfl
  | RestoreEvent eventID =>
    simp only [Op.apply, ScheduleManager.RestoreEvent, hcur]
    cases eventIndex eventID cur.Events with
    | none => exact ⟨cur, hcur, rfl⟩
    | some i =>
      refine ⟨_, rfl, ?_⟩
      apply map_modify_fixed
      intro e
      rfl
  | UpdateEventField eventID field value =>
    simp only [Op.apply, ScheduleManager.UpdateEventField, hcur]
    cases eventIndex eventID cur.Events with
    | none => exact ⟨cur, hcur, rfl⟩
    | some i =>
      simp only
      split_ifs <;> cases value <;>
        first
          | exact ⟨cur, hcur, rfl⟩
          | (refine ⟨_, rfl, ?_⟩; apply map_modify_fixed; intro e; rfl)

theorem runOps_fixed (ops : List Op) (sm : ScheduleManager) (cur : WeekSchedule)
    (hcur : sm.current = some cur) :
    ∃ cur', (runOps sm ops).current = some cur' ∧
      cur'.Events.map (fun e => (e.ID, e.Weekday, e.StartHour, e.EndHour))
        = cur.Events.map (fun e => (e.ID, e.Weekday, e.StartHour, e.EndHour)) := by
  induction ops generalizing sm cur with
  | nil => exact ⟨cur, hcur, rfl⟩
  | cons op ops ih =>
    obtain ⟨cur1, h1, hk1⟩ := Op.apply_fixed sm op cur hcur
    obtain ⟨cur2, h2, hk2⟩ := ih (op.apply sm) cur1 h1
    exact ⟨cur2, by simpa [runOps] using h2, hk2.trans hk1⟩

/-- C14: in every plan reached from `InitWeekSchedule` by any sequence of `SetApproved`,
`SetMessageID`, `DeleteEvent`, `RestoreEvent`, `SetEditingEvent`, `ClearEditingState` and
`UpdateEventField` calls, the event list has the length of the default template and the
same IDs, weekdays and start and end hours in the same order, and the IDs are pairwise
distinct. -/
theorem C14_events_fixed (sm : ScheduleManager) (ops : List Op) :
    ∃ cur, (runOps sm.InitWeekSchedule ops).current = some cur ∧
      cur.Events.length = sm.GetDefaultEvents.length ∧
      cur.Events.map (fun e => (e.ID, e.Weekday, e.StartHour, e.EndHour))
        = sm.GetDefaultEvents.map (fun e => (e.ID, e.Weekday, e.StartHour, e.EndHour)) ∧
      cur.Events.map (fun e => e.ID) = ["monday", "tuesday", "wednesday"] ∧
      (cur.Events.map (fun e => e.ID)).Nodup := by
  obtain ⟨cur, hcur, hk⟩ := runOps_fixed ops sm.InitWeekSchedule _ rfl
  have hk' : cur.Events.map (fun e => (e.ID, e.Weekday, e.StartHour, e.EndHour))
      = sm.GetDefaultEvents.map (fun e => (e.ID, e.Weekday, e.StartHour, e.EndHour)) := hk
  have hids : cur.Events.map (fun e => e.ID) = ["monday", "tuesday", "wednesday"] := by
    have := congrArg (List.map (fun k : String × Int × Int × Int => k.1)) hk'
    simpa [List.map_map, Function.comp_def, ScheduleManager.GetDefaultEvents] using this
  refine ⟨cur, hcur, ?_, hk', hids, ?_⟩
  · have := congrArg List.length hk'
    simpa using this
  · rw [hids]
    decide

/-! ### `GetActiveEvents` -/

theorem activeEvents_eq (active l : List ScheduledEvent) :
    activeEvents active l = active ++ l.filter (fun e => !e.Deleted) := by
  induction l generalizing active with
  | nil => simp [activeEvents]
  | cons a l ih =>
    cases hd : a.Deleted <;> simp [activeEvents, hd, ih]

/-- C16: `GetActiveEvents` returns the events of the plan whose deleted flag is false, each
once and in plan order, which is the order-preserving filter of the event list; with no
plan it returns the empty sequence. -/
theorem C16_GetActiveEvents_filter (sm : ScheduleManager) :
    (sm.current = none → sm.GetActiveEvents = []) ∧
    (∀ cur, sm.current = some cur →
      sm.GetActiveEvents = cur.Events.filter (fun e => !e.Deleted) ∧
      sm.GetActiveEvents.Sublist cur.Events ∧
      (∀ e, e ∈ sm.GetActiveEvents ↔ e ∈ cur.Events ∧ e.Deleted = false) ∧
      (∀ e, sm.GetActiveEvents.count e = if e.Deleted then 0 else cur.Events.count e)) := by
  refine ⟨fun h => by simp [ScheduleManager.GetActiveEvents, h], fun cur hcur => ?_⟩
  have h : sm.GetActiveEvents = cur.Events.filter (fun e => !e.Deleted) := by
    simp [ScheduleManager.GetActiveEvents, hcur, activeEvents_eq]
  rw [h]
  refine ⟨rfl, List.filter_sublist _, fun e => by simp [List.mem_filter], fun e => ?_⟩
  cases hd : e.Deleted
  · simp only [Bool.false_eq_true, if_false]
    exact List.count_filter (by simp [hd])
  · simp only [if_true]
    exact List.count_eq_zero.mpr (by simp [List.mem_filter, hd])

end cron

namespace cron

/-! ### Without a plan -/

/-- C17: with no plan stored every operation of the model fails gracefully: `IsApproved` is
false, `GetMessageID` is 0, `GetEditingState` is the empty pair, `GetEvent`,
`GetEventForWeekday` and `GetCurrentSchedule` return none, `DeleteEvent` and `RestoreEvent`
return false, `UpdateEventField` returns an error, and `SetApproved`, `SetMessageID`,
`SetEditingEvent` and `ClearEditingState` return with the manager still without a plan; the
calls that return a value leave the manager as it was. -/
theorem C17_no_plan_graceful (sm : ScheduleManager) (h : sm.current = none)
    (eventID field : String) (value : Value) (weekday messageID : Int) (approved : Bool) :
    sm.IsApproved = false ∧ sm.GetMessageID = 0 ∧ sm.GetEditingState = ("", "") ∧
    sm.GetEvent eventID = none ∧ sm.GetEventForWeekday weekday = none ∧
    sm.GetCurrentSchedule = none ∧
    sm.DeleteEvent eventID = (false, sm) ∧ sm.RestoreEvent eventID = (false, sm) ∧
    sm.UpdateEventField eventID field value = (some .Uninitialized, sm) ∧
    (sm.SetApproved approved).current = none ∧ (sm.SetMessageID messageID).current = none ∧
    (sm.SetEditingEvent eventID field).current = none ∧
    sm.ClearEditingState.current = none ∧
    sm.GetActiveEvents = [] ∧
    sm.FormatScheduleMessage = "расписание не инициализировано" := by
  simp [ScheduleManager.IsApproved, ScheduleManager.GetMessageID,
    ScheduleManager.GetEditingState, ScheduleManager.GetEvent,
    ScheduleManager.GetEventForWeekday, ScheduleManager.GetCurrentSchedule,
    ScheduleManager.DeleteEvent, ScheduleManager.RestoreEvent,
    ScheduleManager.UpdateEventField, ScheduleManager.SetApproved,
    ScheduleManager.SetMessageID, ScheduleManager.SetEditingEvent,
    ScheduleManager.ClearEditingState, ScheduleManager.GetActiveEvents,
    ScheduleManager.FormatScheduleMessage, h]

/-- Witness for C17: the manager `NewScheduleManager` makes. -/
theorem C17_no_plan_graceful_witness :
    NewScheduleManager.current = none ∧
    NewScheduleManager.DeleteEvent "monday" = (false, NewScheduleManager) ∧
    NewScheduleManager.UpdateEventField "monday" "limit" (.int 5)
      = (some .Uninitialized, NewScheduleManager) :=
  let h := C17_no_plan_graceful NewScheduleManager rfl "monday" "limit" (.int 5) 1 7 true
  ⟨rfl, h.2.2.2.2.2.2.1, h.2.2.2.2.2.2.2.2.1⟩

/-! ### `truncateString` -/

/-- C18: for every string and every maximum length `n ≥ 3`, `truncateString` counts
characters: a string of at most `n` characters is returned unchanged, a longer one is cut to
its first `n - 3` characters followed by the three characters "...", and the result never
has more than `n` characters.  A ten-character string of nineteen bytes is unchanged at
`n = 10` and cut to six whole characters and the ellipsis at `n = 9`. -/
theorem C18_truncateString_runes (s : String) (n : Int) (hn : 3 ≤ n) :
    (∃ r, truncateString s n = some r ∧
      ((s.length : Int) ≤ n → r = s) ∧
      (n < (s.length : Int) →
        r = String.mk (s.data.take (n - 3).toNat) ++ "..." ∧
        r.data = s.data.take (n - 3).toNat ++ "...".data ∧
        (r.length : Int) = n) ∧
      (r.length : Int) ≤ n) ∧
    ("привет мир".utf8ByteSize = 19 ∧ "привет мир".length = 10 ∧
      truncateString "привет мир" 10 = some "привет мир" ∧
      truncateString "привет мир" 9 = some "привет...") := by
  refine ⟨?_, by decide, by decide, by decide, by decide⟩
  have hlen : s.length = s.data.length := rfl
  have hdots : ("...".data).length = 3 := by decide
  by_cases hle : (s.data.length : Int) ≤ n
  · have hres : truncateString s n = some s := by
      simp only [truncateString, hle, if_true]
    refine ⟨s, hres, fun _ => rfl, fun h => ?_, ?_⟩
    · rw [hlen] at h
      omega
    · rw [hlen]
      exact hle
  · have h3 : ¬ (n - 3 < 0) := by omega
    have hres : truncateString s n
        = some (String.mk (s.data.take (n - 3).toNat) ++ "...") := by
      simp only [truncateString, hle, h3, if_false]
    have hdata : (String.mk (s.data.take (n - 3).toNat) ++ "...").data
        = s.data.take (n - 3).toNat ++ "...".data := String.data_append _ _
    have hl : ((String.mk (s.data.take (n - 3).toNat) ++ "...").length : Int) = n := by
      have : (String.mk (s.data.take (n - 3).toNat) ++ "...").length
          = (s.data.take (n - 3).toNat ++ "...".data).length := by
        rw [← hdata]; rfl
      rw [this, List.length_append, List.length_take, hdots]
      omega
    refine ⟨_, hres, fun h => ?_, fun _ => ⟨rfl, hdata, hl⟩, by rw [hl]⟩
    rw [hlen] at h
    exact absurd h hle

/-- Witness for C18: a fifty-one character text at the maximum length of the preview. -/
theorem C18_truncateString_runes_witness :
    (3 : Int) ≤ 50 ∧
    ∃ r, truncateString "запись на южный турнир открыта! нажмите /checkin ок" 50 = some r ∧
      (r.length : Int) ≤ 50 :=
  ⟨by decide,
    let ⟨r, hr, _, _, hlen⟩ := (C18_truncateString_runes
      "запись на южный турнир открыта! нажмите /checkin ок" 50 (by decide)).1
    ⟨r, hr, hlen⟩⟩

end cron

namespace cron

open bot

/-! ### The start and end triggers -/

/-- C19: for every weekday and model state, the start trigger handler creates a tournament
only if `GetEventForWeekday` returns an event, and then with exactly that event's limit, two
rating ceilings and announcement text; the end trigger handler removes a tournament only if
`GetEventForWeekday` returns an event; when it returns none neither handler makes any call. -/
theorem C19_triggers_follow_schedule (s : Scheduler) (b : Bot) (weekday : Int) :
    (s.ScheduleManager.GetEventForWeekday weekday = none →
      s.scheduledTournamentStartFromSchedule b weekday = [] ∧
      s.scheduledTournamentEndFromSchedule b weekday = []) ∧
    (∀ event, s.ScheduleManager.GetEventForWeekday weekday = some event →
      (s.scheduledTournamentStartFromSchedule b weekday).head?
        = some (.CreateTournament event.Limit event.LichessLimit event.ChesscomLimit
            event.Intro) ∧
      (∀ (limit lichess chesscom : Int) (intro : String),
        BotCall.CreateTournament limit lichess chesscom intro
            ∈ s.scheduledTournamentStartFromSchedule b weekday →
          limit = event.Limit ∧ lichess = event.LichessLimit ∧
          chesscom = event.ChesscomLimit ∧ intro = event.Intro) ∧
      s.scheduledTournamentEndFromSchedule b weekday = s.scheduledTournamentEnd b) ∧
    ((∃ (limit lichess chesscom : Int) (intro : String),
        BotCall.CreateTournament limit lichess chesscom intro
          ∈ s.scheduledTournamentStartFromSchedule b weekday) →
      ∃ event, s.ScheduleManager.GetEventForWeekday weekday = some event) ∧
    (BotCall.RemoveTournament ∈ s.scheduledTournamentEndFromSchedule b weekday →
      ∃ event, s.ScheduleManager.GetEventForWeekday weekday = some event) := by
  cases hget : s.ScheduleManager.GetEventForWeekday weekday with
  | none =>
    simp [Scheduler.scheduledTournamentStartFromSchedule,
      Scheduler.scheduledTournamentEndFromSchedule, hget]
  | some event =>
    have hstart : s.scheduledTournamentStartFromSchedule b weekday
        = s.scheduledTournamentStart b event.Limit event.LichessLimit event.ChesscomLimit
            event.Intro := by
      simp [Scheduler.scheduledTournamentStartFromSchedule, hget]
    have hend : s.scheduledTournamentEndFromSchedule b weekday = s.scheduledTournamentEnd b := by
      simp [Scheduler.scheduledTournamentEndFromSchedule, hget]
    refine ⟨fun h => by simp at h, fun e he => ?_, fun _ => ⟨event, rfl⟩, fun _ => ⟨event, rfl⟩⟩
    cases he
    rw [hstart, hend]
    refine ⟨?_, ?_, rfl⟩
    · simp only [Scheduler.scheduledTournamentStart]
      cases b.createTournamentOK <;> cases b.sentMessageID <;> simp
    · intro limit lichess chesscom intro
      simp only [Scheduler.scheduledTournamentStart]
      cases b.createTournamentOK <;> cases b.sentMessageID <;> simp

/-! ### `Start` and `Stop` -/

/-- The counterexample to C20 as stated: on the scheduler `New` makes, a second `Stop` panics
(close of a closed channel), and a second `Start` leaves fourteen goroutines, two for every
trigger, where one `Start` leaves seven. -/
theorem C20_counterexample :
    ((New 1 2).Stop.bind (fun s => s.Stop)).isSome = false ∧
    (New 1 2).Stop.isSome = true ∧
    ((New 1 2).Start []).length = 7 ∧
    ((New 1 2).Start ((New 1 2).Start [])).length = 14 ∧
    (New 1 2).Start ((New 1 2).Start []) ≠ (New 1 2).Start [] ∧
    ∀ g ∈ (New 1 2).Start [], ((New 1 2).Start ((New 1 2).Start [])).count g = 2 := by
  decide

/-- C20, amended: the lifecycle calls are not idempotent.  `Stop` closes the stop channel
when it is open and panics when it is already closed, so it can be called once; `Start`
starts the same seven goroutines on every call, next to those already running, so after a
second call every trigger is armed twice. -/
theorem C20_start_stop_not_idempotent (s : Scheduler) (goroutines : List weeklyGoroutine) :
    (s.stopChanClosed = false →
      ∃ s', s.Stop = some s' ∧ s'.stopChanClosed = true ∧ s'.Stop = none ∧
        s'.ScheduleManager = s.ScheduleManager ∧ s'.timezone = s.timezone) ∧
    (s.stopChanClosed = true → s.Stop = none) ∧
    s.Start goroutines = goroutines ++ s.Start [] ∧
    (s.Start []).length = 7 ∧ (s.Start []).Nodup ∧
    s.Start (s.Start goroutines) = goroutines ++ s.Start [] ++ s.Start [] ∧
    ∀ g ∈ s.Start [], (s.Start (s.Start [])).count g = 2 := by
  have h0 : ∀ g : List weeklyGoroutine, s.Start g = g ++ s.Start [] := by
    intro g
    simp [Scheduler.Start, Scheduler.scheduleWeekly]
  have h1 : s.Start [] = (New 1 2).Start [] := rfl
  refine ⟨fun h => ?_, fun h => by simp [Scheduler.Stop, h], h0 goroutines, ?_, ?_, ?_, ?_⟩
  · exact ⟨{ s with stopChanClosed := true }, by simp [Scheduler.Stop, h], rfl,
      by simp [Scheduler.Stop], rfl, rfl⟩
  · rw [h1]; decide
  · rw [h1]; decide
  · rw [h0 (s.Start goroutines), h0 goroutines]
  · rw [h0 (s.Start []), h1]
    decide

end cron

namespace admingroup

open cron bot

/-! ### The edit cursor -/

/-- C13, the code at the failing input.  On the default plan the field selection for the
existing event `monday` and the field name `bogus` returns the error `unknown field: bogus`
and has stored the cursor `("monday", "bogus")`, also when it arrives as callback data
through `handleScheduleCallback`; the cursor then stays set, since the free-text handler
ignores a field it does not know.  A selection that names an unknown event is answered with
a message and stores nothing. -/
theorem C13_unknown_field_is_stored :
    (handleScheduleSelectField NewScheduleManager.InitWeekSchedule 1 2 "monday" "bogus").returned
        = .Errorf "unknown field: bogus" ∧
    (handleScheduleSelectField NewScheduleManager.InitWeekSchedule 1 2 "monday"
        "bogus").sm.GetEditingState = ("monday", "bogus") ∧
    (handleScheduleCallback NewScheduleManager.InitWeekSchedule
        ⟨"q", 1, 2, "schedule:field:monday:bogus"⟩).map
          (fun o => (o.sm.GetEditingState, o.returned))
        = some (("monday", "bogus"), .Errorf "unknown field: bogus") ∧
    (handleScheduleFieldInput "+"
        (handleScheduleSelectField NewScheduleManager.InitWeekSchedule 1 2 "monday" "bogus").sm
        ⟨some ⟨1, 3, "5"⟩⟩).1.GetEditingState = ("monday", "bogus") ∧
    (handleScheduleSelectField NewScheduleManager.InitWeekSchedule 1 2 "friday" "limit").sm
        = NewScheduleManager.InitWeekSchedule ∧
    (handleScheduleSelectField NewScheduleManager.InitWeekSchedule 1 2 "friday" "limit").calls
        = [.EditMessage 1 2 "турнир не найден"] := by
  decide

end admingroup

namespace admingroup

open cron bot

/-! ### The numeric fields stay non-negative -/

/-- An update through a pointer keeps a property of all events if it keeps it for one. -/
theorem forall_mem_modify (P : ScheduledEvent → Prop) (f : ScheduledEvent → ScheduledEvent)
    (hf : ∀ e, P e → P (f e)) (l : List ScheduledEvent) (i : Nat)
    (h : ∀ e ∈ l, P e) : ∀ e ∈ l.modify f i, P e := by
  induction l generalizing i with
  | nil => simp [List.modify_nil]
  | cons a l ih =>
    have ha : P a := h a (by simp)
    have hl : ∀ e ∈ l, P e := fun e he => h e (by simp [he])
    cases i with
    | zero =>
      rw [List.modify_zero_cons]
      intro e he
      rcases List.mem_cons.mp he with rfl | he
      · exact hf a ha
      · exact hl e he
    | succ k =>
      rw [List.modify_succ_cons]
      intro e he
      rcases List.mem_cons.mp he with rfl | he
      · exact ha
      · exact ih k hl e he

/-- Every call on the manager keeps the limits non-negative, unless it is an
`UpdateEventField` with a negative `int`. -/
theorem NonnegLimits_apply (sm : ScheduleManager) (op : Op)
    (hop : ∀ eventID field v, op = .UpdateEventField eventID field (.int v) → 0 ≤ v)
    (h : NonnegLimits sm) : NonnegLimits (op.apply sm) := by
  cases hcur : sm.current with
  | none =>
    have : op.apply sm = sm := by
      cases op <;> simp [Op.apply, ScheduleManager.SetApproved, ScheduleManager.SetMessageID,
        ScheduleManager.DeleteEvent, ScheduleManager.RestoreEvent,
        ScheduleManager.SetEditingEvent, ScheduleManager.ClearEditingState,
        ScheduleManager.UpdateEventField, hcur]
    rw [this]; exact h
  | some cur =>
    have hc := h cur hcur
    have hkeep : ∀ (f : ScheduledEvent → ScheduledEvent),
        (∀ e, (0 ≤ e.Limit ∧ 0 ≤ e.LichessLimit ∧ 0 ≤ e.ChesscomLimit) →
          (0 ≤ (f e).Limit ∧ 0 ≤ (f e).LichessLimit ∧ 0 ≤ (f e).ChesscomLimit)) →
        ∀ (i : Nat) (a : Bool) (m : Int) (x y : String),
          NonnegLimits ⟨some ⟨cur.Events.modify f i, a, m, x, y⟩⟩ := by
      intro f hf i a m x y cur' hcur'
      cases hcur'
      exact forall_mem_modify _ f hf cur.Events i hc
    have hsame : ∀ (a : Bool) (m : Int) (x y : String),
        NonnegLimits ⟨some ⟨cur.Events, a, m, x, y⟩⟩ := by
      intro a m x y cur' hcur'
      cases hcur'
      exact hc
    cases op with
    | SetApproved approved =>
      simp only [Op.apply, ScheduleManager.SetApproved, hcur]; exact hsame _ _ _ _
    | SetMessageID messageID =>
      simp only [Op.apply, ScheduleManager.SetMessageID, hcur]; exact hsame _ _ _ _
    | SetEditingEvent eventID field =>
      simp only [Op.apply, ScheduleManager.SetEditingEvent, hcur]; exact hsame _ _ _ _
    | ClearEditingState =>
      simp only [Op.apply, ScheduleManager.ClearEditingState, hcur]; exact hsame _ _ _ _
    | DeleteEvent eventID =>
      simp only [Op.apply, ScheduleManager.DeleteEvent, hcur]
      cases eventIndex eventID cur.Events with
      | none => exact h
      | some i =>
        simp only
        apply hkeep
        intro e he
        exact he
    | RestoreEvent eventID =>
      simp only [Op.apply, ScheduleManager.RestoreEvent, hcur]
      cases eventIndex eventID cur.Events with
      | none => exact h
      | some i =>
        simp only
        apply hkeep
        intro e he
        exact he
    | UpdateEventField eventID field value =>
      simp only [Op.apply, ScheduleManager.UpdateEventField, hcur]
      cases eventIndex eventID cur.Events with
      | none => exact h
      | some i =>
        simp only
        cases value with
        | int v =>
          have hv : 0 ≤ v := hop eventID field v rfl
          split_ifs <;>
            first
              | exact h
              | (apply hkeep
                 intro e he
                 first
                   | exact ⟨hv, he.2.1, he.2.2⟩
                   | exact ⟨he.1, hv, he.2.2⟩
                   | exact ⟨he.1, he.2.1, hv⟩)
        | string v =>
          split_ifs <;>
            first
              | exact h
              | (apply hkeep
                 intro e he
                 exact he)
        | other => split_ifs <;> exact h

/-- The free-text handler keeps every property of the manager that all calls on the manager
keep, an `UpdateEventField` with a negative `int` apart. -/
theorem handleScheduleFieldInput_keeps (P : ScheduleManager → Prop)
    (hP : ∀ (sm : ScheduleManager) (op : Op),
      (∀ eventID field v, op = .UpdateEventField eventID field (.int v) → 0 ≤ v) →
      P sm → P (op.apply sm))
    (approveEmoji : String) (sm : ScheduleManager) (update : Update) (h : P sm) :
    P (handleScheduleFieldInput approveEmoji sm update).1 := by
  have hstore : ∀ (message : Message) (eventID field : String) (value : Value),
      (∀ v, value = .int v → 0 ≤ v) →
      P (storeFieldInput approveEmoji sm message eventID field value).1 := by
    intro message eventID field value hvalue
    have h1 : P (sm.UpdateEventField eventID field value).2 :=
      hP sm (.UpdateEventField eventID field value)
        (fun _ _ v hv => hvalue v (by cases hv; rfl)) h
    have h2 : P (sm.UpdateEventField eventID field value).2.ClearEditingState :=
      hP _ .ClearEditingState (fun _ _ _ hv => by cases hv) h1
    simp only [storeFieldInput]
    rcases hU : sm.UpdateEventField eventID field value with ⟨err, sm'⟩
    rw [hU] at h1 h2
    cases err with
    | none => exact h2
    | some e => exact h1
  unfold handleScheduleFieldInput
  cases update.Message with
  | none => exact h
  | some message =>
    simp only
    split_ifs with h1 h2 h3 h4
    · exact h
    · exact h
    · cases hparse : strconv.Atoi (strings.TrimSpace message.Text) with
      | none => exact h
      | some intVal =>
        simp only
        split_ifs with h5
        · exact h
        · exact hstore _ _ _ _ (fun v hv => by cases hv; omega)
    · exact hstore _ _ _ _ (fun v hv => by cases hv)
    · exact h

/-! The manager each callback handler leaves, and that none of them panics on a plan. -/

/-- No call on the manager removes the plan. -/
theorem plan_apply (sm : ScheduleManager) (op : Op) (h : ∃ cur, sm.current = some cur) :
    ∃ cur, (op.apply sm).current = some cur := by
  obtain ⟨cur, hcur⟩ := h
  obtain ⟨cur', hcur', -⟩ := Op.apply_fixed sm op cur hcur
  exact ⟨cur', hcur'⟩

theorem GetDeleteEventKeyboard_plan (sm : ScheduleManager)
    (h : ∃ cur, sm.current = some cur) : ∃ keyboard, sm.GetDeleteEventKeyboard = some keyboard := by
  obtain ⟨cur, hcur⟩ := h
  simp [ScheduleManager.GetDeleteEventKeyboard, hcur]

theorem handleScheduleSelectEditEvent_sm (sm : ScheduleManager) (chatID messageID : Int)
    (eventID : String) : (handleScheduleSelectEditEvent sm chatID messageID eventID).sm = sm := by
  unfold handleScheduleSelectEditEvent
  cases sm.GetEvent eventID <;> rfl

theorem handleScheduleShowDeleteEvents_sm (sm : ScheduleManager) (chatID messageID : Int)
    (h : ∃ cur, sm.current = some cur) :
    ∃ o, handleScheduleShowDeleteEvents sm chatID messageID = some o ∧ o.sm = sm := by
  obtain ⟨keyboard, hk⟩ := GetDeleteEventKeyboard_plan sm h
  unfold handleScheduleShowDeleteEvents
  rw [hk]
  exact ⟨_, rfl, rfl⟩

theorem handleScheduleDeleteEvent_sm (sm : ScheduleManager) (chatID messageID : Int)
    (eventID : String) (h : ∃ cur, sm.current = some cur) :
    ∃ o, handleScheduleDeleteEvent sm chatID messageID eventID = some o ∧
      (o.sm = sm ∨ o.sm = (sm.RestoreEvent eventID).2 ∨ o.sm = (sm.DeleteEvent eventID).2) := by
  unfold handleScheduleDeleteEvent
  cases hev : sm.GetEvent eventID with
  | none => exact ⟨_, rfl, Or.inl rfl⟩
  | some event =>
    simp only
    cases hd : event.Deleted <;> simp only [Bool.false_eq_true, if_false, if_true]
    · obtain ⟨keyboard, hk⟩ := GetDeleteEventKeyboard_plan _
        (plan_apply sm (.DeleteEvent eventID) h)
      simp only [Op.apply] at hk
      rw [hk]
      exact ⟨_, rfl, Or.inr (Or.inr rfl)⟩
    · obtain ⟨keyboard, hk⟩ := GetDeleteEventKeyboard_plan _
        (plan_apply sm (.RestoreEvent eventID) h)
      simp only [Op.apply] at hk
      rw [hk]
      exact ⟨_, rfl, Or.inr (Or.inl rfl)⟩

theorem handleScheduleSelectField_sm (sm : ScheduleManager) (chatID messageID : Int)
    (eventID field : String) :
    (handleScheduleSelectField sm chatID messageID eventID field).sm = sm ∨
    (handleScheduleSelectField sm chatID messageID eventID field).sm
      = sm.SetEditingEvent eventID field := by
  unfold handleScheduleSelectField
  cases sm.GetEvent eventID with
  | none => exact Or.inl rfl
  | some event =>
    simp only
    split_ifs <;> exact Or.inr rfl

/-- On a plan the callback handler does not panic, and the manager it leaves is the one it
found or the result of one of five calls on it. -/
theorem handleScheduleCallback_sm (sm : ScheduleManager) (query : CallbackQuery)
    (h : ∃ cur, sm.current = some cur) :
    ∃ o, handleScheduleCallback sm query = some o ∧
      (o.sm = sm ∨ o.sm = (sm.SetApproved true).ClearEditingState ∨
        o.sm = sm.ClearEditingState ∨ (∃ eventID, o.sm = (sm.RestoreEvent eventID).2) ∨
        (∃ eventID, o.sm = (sm.DeleteEvent eventID).2) ∨
        ∃ eventID field, o.sm = sm.SetEditingEvent eventID field) := by
  obtain ⟨cur, hcur⟩ := h
  have hplan : sm.GetCurrentSchedule = some cur := hcur
  unfold handleScheduleCallback
  rw [hplan]
  simp only
  split_ifs with hlen
  · exact ⟨_, rfl, Or.inl rfl⟩
  · suffices hd : ∃ o, dispatchScheduleAction sm query.ChatID query.MessageID
          (strings.Split query.Data ":") = some o ∧
        (o.sm = sm ∨ o.sm = (sm.SetApproved true).ClearEditingState ∨
          o.sm = sm.ClearEditingState ∨ (∃ eventID, o.sm = (sm.RestoreEvent eventID).2) ∨
          (∃ eventID, o.sm = (sm.DeleteEvent eventID).2) ∨
          ∃ eventID field, o.sm = sm.SetEditingEvent eventID field) by
      obtain ⟨o, ho, hsm⟩ := hd
      rw [ho]
      exact ⟨_, rfl, hsm⟩
    unfold dispatchScheduleAction
    simp only
    split_ifs
    · exact ⟨_, rfl, Or.inr (Or.inl rfl)⟩
    · exact ⟨_, rfl, Or.inl rfl⟩
    · obtain ⟨o, ho, hsm⟩ := handleScheduleShowDeleteEvents_sm sm query.ChatID query.MessageID
        ⟨cur, hcur⟩
      exact ⟨o, ho, Or.inl hsm⟩
    · exact ⟨_, rfl, Or.inr (Or.inr (Or.inl rfl))⟩
    · exact ⟨_, rfl, Or.inl rfl⟩
    · exact ⟨_, rfl, Or.inl (handleScheduleSelectEditEvent_sm _ _ _ _)⟩
    · exact ⟨_, rfl, Or.inl rfl⟩
    · obtain ⟨o, ho, hsm⟩ := handleScheduleDeleteEvent_sm sm query.ChatID query.MessageID
        ((strings.Split query.Data ":").getD 2 "") ⟨cur, hcur⟩
      refine ⟨o, ho, ?_⟩
      rcases hsm with e | e | e
      · exact Or.inl e
      · exact Or.inr (Or.inr (Or.inr (Or.inl ⟨_, e⟩)))
      · exact Or.inr (Or.inr (Or.inr (Or.inr (Or.inl ⟨_, e⟩))))
    · exact ⟨_, rfl, Or.inl rfl⟩
    · refine ⟨_, rfl, ?_⟩
      rcases handleScheduleSelectField_sm sm query.ChatID query.MessageID
        ((strings.Split query.Data ":").getD 2 "")
        ((strings.Split query.Data ":").getD 3 "") with e | e
      · exact Or.inl e
      · exact Or.inr (Or.inr (Or.inr (Or.inr (Or.inr ⟨_, _, e⟩))))
    · exact ⟨_, rfl, Or.inl rfl⟩

/-- The handlers keep the plan and keep its limits non-negative, and do not panic. -/
theorem step_keeps (approveEmoji : String) (sm : ScheduleManager) (input : Input)
    (hplan : ∃ cur, sm.current = some cur) (h : NonnegLimits sm) :
    ∃ sm', step approveEmoji sm input = some sm' ∧ (∃ cur, sm'.current = some cur) ∧
      NonnegLimits sm' := by
  have hop : ∀ op : Op, (∀ eventID field value, op ≠ .UpdateEventField eventID field value) →
      ∀ sm', NonnegLimits sm' → NonnegLimits (op.apply sm') := by
    intro op hne sm' h'
    exact NonnegLimits_apply sm' op (fun a b v hv => absurd hv (hne a b (.int v))) h'
  cases input with
  | callback query =>
    obtain ⟨o, ho, hsm⟩ := handleScheduleCallback_sm sm query hplan
    refine ⟨o.sm, by simp [step, ho], ?_⟩
    rcases hsm with e | e | e | ⟨eventID, e⟩ | ⟨eventID, e⟩ | ⟨eventID, field, e⟩ <;> rw [e]
    · exact ⟨hplan, h⟩
    · exact ⟨plan_apply _ .ClearEditingState (plan_apply sm (.SetApproved true) hplan),
        hop .ClearEditingState (by intros; simp) _
          (hop (.SetApproved true) (by intros; simp) _ h)⟩
    · exact ⟨plan_apply sm .ClearEditingState hplan,
        hop .ClearEditingState (by intros; simp) _ h⟩
    · exact ⟨plan_apply sm (.RestoreEvent eventID) hplan,
        hop (.RestoreEvent eventID) (by intros; simp) _ h⟩
    · exact ⟨plan_apply sm (.DeleteEvent eventID) hplan,
        hop (.DeleteEvent eventID) (by intros; simp) _ h⟩
    · exact ⟨plan_apply sm (.SetEditingEvent eventID field) hplan,
        hop (.SetEditingEvent eventID field) (by intros; simp) _ h⟩
  | message update =>
    exact ⟨_, rfl,
      handleScheduleFieldInput_keeps (fun sm => ∃ cur, sm.current = some cur)
        (fun sm op _ hsm => plan_apply sm op hsm) approveEmoji sm update hplan,
      handleScheduleFieldInput_keeps NonnegLimits NonnegLimits_apply approveEmoji sm update h⟩

theorem run_keeps (approveEmoji : String) (inputs : List Input) (sm : ScheduleManager)
    (hplan : ∃ cur, sm.current = some cur) (h : NonnegLimits sm) :
    ∃ sm', run approveEmoji sm inputs = some sm' ∧ (∃ cur, sm'.current = some cur) ∧
      NonnegLimits sm' := by
  induction inputs generalizing sm with
  | nil => exact ⟨sm, rfl, hplan, h⟩
  | cons input inputs ih =>
    obtain ⟨sm1, h1, hplan1, hn1⟩ := step_keeps approveEmoji sm input hplan h
    obtain ⟨sm2, h2, hplan2, hn2⟩ := ih sm1 hplan1 hn1
    exact ⟨sm2, by simp [run, h1, h2], hplan2, hn2⟩

/-- C15: from `InitWeekSchedule`, after any sequence of callbacks of the schedule message
(approve, delete or restore, field selection and the rest of `handleScheduleCallback`, with
any callback data) and of messages handled by `handleScheduleFieldInput` (with any text), no
handler has panicked, a plan is stored, and in every event of the plan the participant
limit and both rating ceilings are non-negative. -/
theorem C15_limits_nonnegative (approveEmoji : String) (sm : ScheduleManager)
    (inputs : List Input) :
    ∃ sm' cur, run approveEmoji sm.InitWeekSchedule inputs = some sm' ∧
      sm'.current = some cur ∧
      ∀ e ∈ cur.Events, 0 ≤ e.Limit ∧ 0 ≤ e.LichessLimit ∧ 0 ≤ e.ChesscomLimit := by
  have h0 : NonnegLimits sm.InitWeekSchedule := by
    intro cur hcur e he
    cases hcur
    simp only [ScheduleManager.GetDefaultEvents, List.mem_cons, List.mem_singleton,
      List.not_mem_nil, or_false] at he
    rcases he with rfl | rfl | rfl <;> decide
  obtain ⟨sm', hrun, ⟨cur, hcur⟩, hn⟩ :=
    run_keeps approveEmoji inputs sm.InitWeekSchedule ⟨_, rfl⟩ h0
  exact ⟨sm', cur, hrun, hcur, hn cur hcur⟩

end admingroup

namespace cron

/-! ### The rendering -/

/-- The last character of a text that ends with a non-empty text is the last character of
that ending. -/
theorem getLast?_data_append (a b : String) (c : Char) (h : b.data.getLast? = some c) :
    (a ++ b).data.getLast? = some c := by
  rw [String.data_append, List.getLast?_append, h]
  rfl

/-- C24: the rendering of `FormatScheduleMessage`.  It depends on the events and the approved
flag of the plan only; with no plan it is the text that the schedule is not initialised;
with a plan it ends with the banner that the schedule is confirmed exactly when the plan is
approved, and with the banner that confirmation is awaited exactly when it is not. -/
theorem C24_FormatScheduleMessage_banner (sm : ScheduleManager) :
    (∀ sm' : ScheduleManager, sm.current = sm'.current →
      sm.FormatScheduleMessage = sm'.FormatScheduleMessage) ∧
    (∀ (sm' : ScheduleManager) (cur cur' : WeekSchedule), sm.current = some cur →
      sm'.current = some cur' → cur.Events = cur'.Events → cur.Approved = cur'.Approved →
      sm.FormatScheduleMessage = sm'.FormatScheduleMessage) ∧
    (sm.current = none → sm.FormatScheduleMessage = "расписание не инициализировано") ∧
    (∀ cur : WeekSchedule, sm.current = some cur →
      ((∃ body : String, sm.FormatScheduleMessage = body ++ "✅ *расписание подтверждено*")
        ↔ cur.Approved = true) ∧
      ((∃ body : String, sm.FormatScheduleMessage = body ++
          "⚠️ *ожидает подтверждения*\nтурниры не будут запущены, пока не нажмёте \"всё верно\"")
        ↔ cur.Approved = false)) := by
  refine ⟨?_, ?_, ?_, ?_⟩
  · intro sm' h
    simp only [ScheduleManager.FormatScheduleMessage, h]
  · intro sm' cur cur' h h' he ha
    simp only [ScheduleManager.FormatScheduleMessage, h, h', he, ha]
  · intro h
    simp only [ScheduleManager.FormatScheduleMessage, h]
  · intro cur h
    have hA : ("✅ *расписание подтверждено*" : String).data.getLast? = some '*' := by decide
    have hB : ("⚠️ *ожидает подтверждения*\nтурниры не будут запущены, пока не нажмёте \"всё верно\""
        : String).data.getLast? = some (Char.ofNat 34) := by decide
    cases ha : cur.Approved with
    | true =>
      have hF : sm.FormatScheduleMessage
          = cur.Events.foldl ScheduleManager.formatEvent "📅 *расписание турниров на неделю*\n\n"
            ++ "✅ *расписание подтверждено*" := by
        simp only [ScheduleManager.FormatScheduleMessage, h, ha, if_true]
      refine ⟨⟨fun _ => rfl, fun _ => ⟨_, hF⟩⟩, ⟨?_, fun hc => by cases hc⟩⟩
      rintro ⟨body, hb⟩
      have h1 := getLast?_data_append
        (cur.Events.foldl ScheduleManager.formatEvent "📅 *расписание турниров на неделю*\n\n") _ _ hA
      have h2 := getLast?_data_append body _ _ hB
      rw [← hF, hb, h2] at h1
      exact absurd h1 (by decide)
    | false =>
      have hF : sm.FormatScheduleMessage
          = cur.Events.foldl ScheduleManager.formatEvent "📅 *расписание турниров на неделю*\n\n"
            ++ "⚠️ *ожидает подтверждения*\nтурниры не будут запущены, пока не нажмёте \"всё верно\"" := by
        simp only [ScheduleManager.FormatScheduleMessage, h, ha, Bool.false_eq_true, if_false]
      refine ⟨⟨?_, fun hc => by cases hc⟩, ⟨fun _ => rfl, fun _ => ⟨_, hF⟩⟩⟩
      rintro ⟨body, hb⟩
      have h1 := getLast?_data_append
        (cur.Events.foldl ScheduleManager.formatEvent "📅 *расписание турниров на неделю*\n\n") _ _ hB
      have h2 := getLast?_data_append body _ _ hA
      rw [← hF, hb, h2] at h1
      exact absurd h1 (by decide)

/-! ### The frame of `UpdateEventField` -/

/-- C25: when `UpdateEventField` returns nil, a plan was stored and held an event with the
ID; the plan afterwards differs from the one before in one place only: the first event with
the ID has the named field equal to the value, the field being `limit`, `lichess_limit` or
`chesscom_limit` with an `int` or `intro` with a `string`.  The other fields of that
event, every other event, the approved flag, the message reference and the edit cursor are
as before. -/
theorem C25_UpdateEventField_frame (sm : ScheduleManager) (eventID field : String)
    (value : Value) (h : (sm.UpdateEventField eventID field value).1 = none) :
    ∃ (cur cur' : WeekSchedule) (i : Nat) (e e' : ScheduledEvent),
      sm.current = some cur ∧ cur.Events[i]? = some e ∧ e.ID = eventID ∧
      (∀ j : Nat, j < i → ∀ a : ScheduledEvent, cur.Events[j]? = some a → a.ID ≠ eventID) ∧
      ((field = "limit" ∧ ∃ v, value = .int v ∧ e' = { e with Limit := v }) ∨
        (field = "lichess_limit" ∧ ∃ v, value = .int v ∧ e' = { e with LichessLimit := v }) ∨
        (field = "chesscom_limit" ∧ ∃ v, value = .int v ∧
          e' = { e with ChesscomLimit := v }) ∨
        (field = "intro" ∧ ∃ v, value = .string v ∧ e' = { e with Intro := v })) ∧
      (sm.UpdateEventField eventID field value).2.current = some cur' ∧
      cur'.Events = cur.Events.set i e' ∧
      (∀ j : Nat, j ≠ i → cur'.Events[j]? = cur.Events[j]?) ∧
      cur'.Approved = cur.Approved ∧ cur'.MessageID = cur.MessageID ∧
      cur'.EditingEventID = cur.EditingEventID ∧ cur'.EditingField = cur.EditingField := by
  cases hcur : sm.current with
  | none => simp [ScheduleManager.UpdateEventField, hcur] at h
  | some cur =>
    cases hidx : eventIndex eventID cur.Events with
    | none => simp [ScheduleManager.UpdateEventField, hcur, hidx] at h
    | some i =>
      obtain ⟨e, he, hid, hmin⟩ := eventIndex_eq_some.mp hidx
      have hset : ∀ e' : ScheduledEvent, ∀ j : Nat, j ≠ i →
          (cur.Events.set i e')[j]? = cur.Events[j]? := by
        intro e' j hj
        rw [List.getElem?_set_ne (Ne.symm hj)]
      rw [UpdateEventField_found sm cur eventID field value i e hcur hidx he] at h ⊢
      split_ifs at h ⊢ with h1 h2 h3 h4
      · cases value with
        | int v =>
          exact ⟨cur, _, i, e, { e with Limit := v }, rfl, he, hid, hmin,
            Or.inl ⟨h1, v, rfl, rfl⟩, rfl, rfl, hset _, rfl, rfl, rfl, rfl⟩
        | string v => simp at h
        | other => simp at h
      · cases value with
        | int v =>
          exact ⟨cur, _, i, e, { e with LichessLimit := v }, rfl, he, hid, hmin,
            Or.inr (Or.inl ⟨h2, v, rfl, rfl⟩), rfl, rfl, hset _, rfl, rfl, rfl, rfl⟩
        | string v => simp at h
        | other => simp at h
      · cases value with
        | int v =>
          exact ⟨cur, _, i, e, { e with ChesscomLimit := v }, rfl, he, hid, hmin,
            Or.inr (Or.inr (Or.inl ⟨h3, v, rfl, rfl⟩)), rfl, rfl, hset _, rfl, rfl, rfl, rfl⟩
        | string v => simp at h
        | other => simp at h
      · cases value with
        | string v =>
          exact ⟨cur, _, i, e, { e with Intro := v }, rfl, he, hid, hmin,
            Or.inr (Or.inr (Or.inr ⟨h4, v, rfl, rfl⟩)), rfl, rfl, hset _, rfl, rfl, rfl, rfl⟩
        | int v => simp at h
        | other => simp at h

/-- Witness for C25: on the default plan, approved, the limit of the Tuesday event is set to
10; the plan is still approved. -/
theorem C25_UpdateEventField_frame_witness :
    (((NewScheduleManager.InitWeekSchedule.SetApproved true).UpdateEventField "tuesday" "limit"
        (.int 10)).1 = none) ∧
    ∃ (cur' : WeekSchedule) (i : Nat) (e' : ScheduledEvent),
      ((NewScheduleManager.InitWeekSchedule.SetApproved true).UpdateEventField "tuesday" "limit"
        (.int 10)).2.current = some cur' ∧
      cur'.Events = NewScheduleManager.GetDefaultEvents.set i e' ∧ cur'.Approved = true :=
  ⟨by decide,
    let ⟨_, cur', i, _, e', hcur, _, _, _, _, h, hev, _, happ, _, _, _⟩ :=
      C25_UpdateEventField_frame (NewScheduleManager.InitWeekSchedule.SetApproved true)
        "tuesday" "limit" (.int 10) (by decide)
    ⟨cur', i, e', h, by cases hcur; exact hev, by cases hcur; exact happ⟩⟩

/-- C26: when `UpdateEventField` returns an error, whichever it is, the manager is the one
before the call. -/
theorem C26_UpdateEventField_error_keeps (sm : ScheduleManager) (eventID field : String)
    (value : Value) (h : (sm.UpdateEventField eventID field value).1 ≠ none) :
    (sm.UpdateEventField eventID field value).2 = sm := by
  cases hcur : sm.current with
  | none => simp [ScheduleManager.UpdateEventField, hcur]
  | some cur =>
    cases hidx : eventIndex eventID cur.Events with
    | none => simp [ScheduleManager.UpdateEventField, hcur, hidx]
    | some i =>
      obtain ⟨e, he, -, -⟩ := eventIndex_eq_some.mp hidx
      rw [UpdateEventField_found sm cur eventID field value i e hcur hidx he] at h ⊢
      split_ifs at h ⊢ <;> cases value <;> first | rfl | exact absurd rfl h

/-- Witness for C26: on the default plan each of the errors, and without a plan the error
that there is none. -/
theorem C26_UpdateEventField_error_keeps_witness :
    ((NewScheduleManager.InitWeekSchedule.UpdateEventField "tuesday" "limit"
        (.string "many")).1 ≠ none ∧
      (NewScheduleManager.InitWeekSchedule.UpdateEventField "tuesday" "limit"
        (.string "many")).2 = NewScheduleManager.InitWeekSchedule) ∧
    ((NewScheduleManager.InitWeekSchedule.UpdateEventField "friday" "limit" (.int 1)).1 ≠ none ∧
      (NewScheduleManager.InitWeekSchedule.UpdateEventField "friday" "limit" (.int 1)).2
        = NewScheduleManager.InitWeekSchedule) ∧
    ((NewScheduleManager.InitWeekSchedule.UpdateEventField "tuesday" "day" (.int 1)).1 ≠ none ∧
      (NewScheduleManager.InitWeekSchedule.UpdateEventField "tuesday" "day" (.int 1)).2
        = NewScheduleManager.InitWeekSchedule) ∧
    ((NewScheduleManager.UpdateEventField "tuesday" "limit" (.int 1)).1 ≠ none ∧
      (NewScheduleManager.UpdateEventField "tuesday" "limit" (.int 1)).2 = NewScheduleManager) :=
  ⟨⟨by decide, C26_UpdateEventField_error_keeps _ "tuesday" "limit" (.string "many")
      (by decide)⟩,
    ⟨by decide, C26_UpdateEventField_error_keeps _ "friday" "limit" (.int 1) (by decide)⟩,
    ⟨by decide, C26_UpdateEventField_error_keeps _ "tuesday" "day" (.int 1) (by decide)⟩,
    ⟨by decide, C26_UpdateEventField_error_keeps _ "tuesday" "limit" (.int 1) (by decide)⟩⟩

end cron

namespace cron

/-! ### The loop of a trigger -/

/-- C22: the state machine of a trigger.  From `Armed` the ticker leads to `Firing`, from
`Firing` the return of the handler leads to `Armed` with a delay of exactly seven days, and
`Stopped` is reached only from `Armed`, on the stop signal, once the stop channel is closed.
No step leaves `Stopped`: in every run of the loop a state `Stopped` is the last state, so
no `Firing` comes after it. -/
theorem C22_Stopped_absorbing (s : Scheduler) :
    (∀ ev, s.triggerStep .Stopped ev = none) ∧
    (∀ d, s.triggerStep (.Armed d) .tick = some .Firing) ∧
    s.triggerStep .Firing .handlerReturns = some (.Armed (7 * 24 * 3600 * 1000000000)) ∧
    (∀ st ev, s.triggerStep st ev = some .Stopped ↔
      (∃ d, st = .Armed d) ∧ ev = .stop ∧ s.stopChanClosed = true) ∧
    (∀ st evs (i : Nat), (s.triggerTrace st evs)[i]? = some .Stopped →
      (s.triggerTrace st evs).length = i + 1) ∧
    (∀ st evs (i j : Nat), (s.triggerTrace st evs)[i]? = some .Stopped → i < j →
      (s.triggerTrace st evs)[j]? ≠ some .Firing) := by
  have hlast : ∀ evs st (i : Nat), (s.triggerTrace st evs)[i]? = some .Stopped →
      (s.triggerTrace st evs).length = i + 1 := by
    intro evs
    induction evs with
    | nil =>
      intro st i h
      cases i with
      | zero => rfl
      | succ k => simp [Scheduler.triggerTrace] at h
    | cons ev evs ih =>
      intro st i h
      cases hstep : s.triggerStep st ev with
      | none =>
        simp only [Scheduler.triggerTrace, hstep] at h ⊢
        cases i with
        | zero => rfl
        | succ k => simp at h
      | some st' =>
        simp only [Scheduler.triggerTrace, hstep] at h ⊢
        cases i with
        | zero =>
          simp at h
          subst h
          cases ev <;> simp [Scheduler.triggerStep] at hstep
        | succ k =>
          simp at h
          simp [ih st' k h]
  refine ⟨?_, ?_, ?_, ?_, fun st evs i h => hlast evs st i h, ?_⟩
  · intro ev
    cases ev <;> rfl
  · intro d
    rfl
  · rfl
  · intro st ev
    cases st <;> cases ev <;> simp [Scheduler.triggerStep]
  · intro st evs i j h hij hj
    have hlen := hlast evs st i h
    have hlt : j < (s.triggerTrace st evs).length := by
      by_contra hge
      rw [List.getElem?_eq_none (by omega)] at hj
      cases hj
    omega

/-! ### The trigger table -/

/-- C29: the triggers `Start` registers agree with the default events.  For every default
event there is a start trigger at the event's weekday and start hour, minute 0, and an end
trigger at its weekday and end hour, minute 0, each with a handler that consults that
weekday; and every start or end trigger belongs in this way to a default event. -/
theorem C29_triggers_match_default_events (s : Scheduler) (sm : ScheduleManager) :
    (∀ e ∈ sm.GetDefaultEvents,
      weeklyGoroutine.mk ⟨e.Weekday, e.StartHour, 0⟩
          (.scheduledTournamentStartFromSchedule e.Weekday) ∈ s.Start [] ∧
      weeklyGoroutine.mk ⟨e.Weekday, e.EndHour, 0⟩
          (.scheduledTournamentEndFromSchedule e.Weekday) ∈ s.Start []) ∧
    (∀ g ∈ s.Start [], ∀ w : Int,
      (g.handler = .scheduledTournamentStartFromSchedule w →
        ∃ e ∈ sm.GetDefaultEvents, e.Weekday = w ∧ g.task = ⟨e.Weekday, e.StartHour, 0⟩) ∧
      (g.handler = .scheduledTournamentEndFromSchedule w →
        ∃ e ∈ sm.GetDefaultEvents, e.Weekday = w ∧ g.task = ⟨e.Weekday, e.EndHour, 0⟩)) := by
  have h1 : s.Start [] = (New 1 2).Start [] := rfl
  have h2 : sm.GetDefaultEvents = NewScheduleManager.GetDefaultEvents := rfl
  rw [h1, h2]
  constructor
  · decide
  · intro g hg w
    simp only [Scheduler.Start, Scheduler.scheduleWeekly, List.nil_append, List.cons_append,
      List.mem_cons, List.mem_singleton, List.not_mem_nil, or_false] at hg
    rcases hg with rfl | rfl | rfl | rfl | rfl | rfl | rfl <;>
      refine ⟨fun h => ?_, fun h => ?_⟩ <;> cases h <;> decide

end cron

namespace admingroup

open cron bot

/-! ### The two ways to publish the preview -/

/-- C21: `handleSendSchedule` and `sendSchedulePreview` do the same on the same manager and
the same outcome of the send call.  Both replace the plan with the fresh default plan, make
one call, `SendMessageWithButtonsAndGetID` with the rendering of that fresh plan and the
main keyboard (to the chat of the command and to the admin group), and store the returned
message ID in the plan exactly when the send succeeded; the managers they leave are equal.
The handler returns the error of the send call, or nil after a send that succeeded. -/
theorem C21_handleSendSchedule_as_sendSchedulePreview (s : Scheduler) (m : Message)
    (sent : Option Int) :
    ∃ o : Outcome, handleSendSchedule s.ScheduleManager ⟨some m⟩ sent = some o ∧
      o.sm = (s.sendSchedulePreview sent).1.ScheduleManager ∧
      o.sm.current = some ⟨s.ScheduleManager.GetDefaultEvents, false, sent.getD 0, "", ""⟩ ∧
      (∀ messageID, sent = some messageID →
        o.sm = s.ScheduleManager.InitWeekSchedule.SetMessageID messageID ∧
        o.returned = .nil) ∧
      (sent = none → o.sm = s.ScheduleManager.InitWeekSchedule ∧ o.returned = .ofBot) ∧
      o.calls = [.SendMessageWithButtonsAndGetID m.ChatID
        s.ScheduleManager.InitWeekSchedule.FormatScheduleMessage GetScheduleMainKeyboard] ∧
      (s.sendSchedulePreview sent).2 = [.SendMessageWithButtonsAndGetID s.adminGroupID
        s.ScheduleManager.InitWeekSchedule.FormatScheduleMessage GetScheduleMainKeyboard] ∧
      (m.ChatID = s.adminGroupID → o.calls = (s.sendSchedulePreview sent).2) := by
  cases sent with
  | none =>
    refine ⟨_, rfl, rfl, rfl, fun _ h => (by cases h), fun _ => ⟨rfl, rfl⟩, rfl, rfl, ?_⟩
    intro h
    simp only [Scheduler.sendSchedulePreview, h]
  | some messageID =>
    refine ⟨_, rfl, rfl, rfl, fun _ h => ?_, fun h => (by cases h), rfl, rfl, ?_⟩
    · cases h
      exact ⟨rfl, rfl⟩
    · intro h
      simp only [Scheduler.sendSchedulePreview, h]

/-! ### The delete and restore toggle -/

/-- What `handleScheduleDeleteEvent` does once the event is found: the deleted flag of the
event the lookup loop stops at is set to its negation. -/
theorem handleScheduleDeleteEvent_found (sm : ScheduleManager) (cur : WeekSchedule)
    (chatID messageID : Int) (eventID : String) (i : Nat) (e : ScheduledEvent)
    (hcur : sm.current = some cur) (hidx : eventIndex eventID cur.Events = some i)
    (he : cur.Events[i]? = some e) :
    ∃ o : Outcome, handleScheduleDeleteEvent sm chatID messageID eventID = some o ∧
      o.sm = (if e.Deleted then (sm.RestoreEvent eventID).2 else (sm.DeleteEvent eventID).2) ∧
      o.sm = ⟨some { cur with
        Events := cur.Events.modify (fun a => { a with Deleted := !e.Deleted }) i }⟩ := by
  have hget : sm.GetEvent eventID = some e := by
    simp [ScheduleManager.GetEvent, hcur, hidx, he]
  unfold handleScheduleDeleteEvent
  rw [hget]
  cases hd : e.Deleted <;>
    simp [ScheduleManager.DeleteEvent, ScheduleManager.RestoreEvent, hcur, hidx, hd,
      ScheduleManager.GetDeleteEventKeyboard]

/-- C27: for an event ID present in the plan, `handleScheduleDeleteEvent` calls
`RestoreEvent` if the first event with the ID is deleted and `DeleteEvent` otherwise; the
plan afterwards is the plan before with the deleted flag of that event negated and nothing
else changed; and the handler applied once more to the same ID leaves the manager that was
there before the first application. -/
theorem C27_toggle_involution (sm : ScheduleManager) (cur : WeekSchedule)
    (chatID messageID chatID' messageID' : Int) (eventID : String)
    (hcur : sm.current = some cur) (hex : ∃ e ∈ cur.Events, e.ID = eventID) :
    ∃ (i : Nat) (e : ScheduledEvent) (o o' : Outcome),
      cur.Events[i]? = some e ∧ e.ID = eventID ∧
      (∀ j : Nat, j < i → ∀ a : ScheduledEvent, cur.Events[j]? = some a → a.ID ≠ eventID) ∧
      handleScheduleDeleteEvent sm chatID messageID eventID = some o ∧
      o.sm = (if e.Deleted then (sm.RestoreEvent eventID).2 else (sm.DeleteEvent eventID).2) ∧
      o.sm.current
        = some { cur with Events := cur.Events.set i { e with Deleted := !e.Deleted } } ∧
      handleScheduleDeleteEvent o.sm chatID' messageID' eventID = some o' ∧
      o'.sm = sm := by
  obtain ⟨i, e, hidx, he, hid, hmin⟩ := exists_first_of_mem hex
  obtain ⟨o, ho, hsel, hsm⟩ :=
    handleScheduleDeleteEvent_found sm cur chatID messageID eventID i e hcur hidx he
  have hidx' : eventIndex eventID
      (cur.Events.modify (fun a => { a with Deleted := !e.Deleted }) i) = some i :=
    (eventIndex_modify (fun a => { a with Deleted := !e.Deleted }) (fun _ => rfl) eventID
      cur.Events i).trans hidx
  have he' : (cur.Events.modify (fun a => { a with Deleted := !e.Deleted }) i)[i]?
      = some { e with Deleted := !e.Deleted } :=
    getElem?_modify_self (fun a => { a with Deleted := !e.Deleted }) he
  obtain ⟨o', ho', -, hsm'⟩ :=
    handleScheduleDeleteEvent_found o.sm _ chatID' messageID' eventID i _
      (by rw [hsm]) hidx' he'
  refine ⟨i, e, o, o', he, hid, hmin, ho, hsel, ?_, ho', ?_⟩
  · rw [hsm, modify_eq_set he]
  · rw [hsm']
    simp only [modify_modify_same, Bool.not_not]
    rw [modify_eq_set he, set_same he]
    cases sm
    simp only at hcur
    rw [hcur]

/-- Witness for C27: the Tuesday event of the default plan, toggled twice. -/
theorem C27_toggle_involution_witness :
    (∃ e ∈ NewScheduleManager.GetDefaultEvents, e.ID = "tuesday") ∧
    ∃ o o' : Outcome,
      handleScheduleDeleteEvent NewScheduleManager.InitWeekSchedule 1 2 "tuesday" = some o ∧
      handleScheduleDeleteEvent o.sm 1 2 "tuesday" = some o' ∧
      o'.sm = NewScheduleManager.InitWeekSchedule :=
  ⟨⟨_, List.mem_cons_of_mem _ (List.mem_cons_self _ _), rfl⟩,
    let ⟨_, _, o, o', _, _, _, h1, _, _, h2, h3⟩ :=
      C27_toggle_involution NewScheduleManager.InitWeekSchedule _ 1 2 1 2 "tuesday" rfl
        ⟨_, List.mem_cons_of_mem _ (List.mem_cons_self _ _), rfl⟩
    ⟨o, o', h1, h2, h3⟩⟩

/-! ### The keyboard that needs a plan -/

/-- C28: `GetDeleteEventKeyboard` fails exactly when no plan is stored.  `InitWeekSchedule`
stores a plan, and no call of the manager, alone or in a sequence, removes a stored plan.
Without a plan `handleScheduleCallback` answers the callback, edits the message to say so,
and returns, leaving the manager as it is; and for every manager and every callback the
handler returns, so that on no path through it `GetDeleteEventKeyboard` has failed. -/
theorem C28_keyboard_failure_unreachable (sm : ScheduleManager) (query : CallbackQuery) :
    (sm.GetDeleteEventKeyboard = none ↔ sm.current = none) ∧
    (∃ cur, sm.InitWeekSchedule.current = some cur) ∧
    (∀ op : Op, (∃ cur, sm.current = some cur) → ∃ cur, (op.apply sm).current = some cur) ∧
    (∀ ops : List Op, ∃ cur, (runOps sm.InitWeekSchedule ops).current = some cur) ∧
    (sm.current = none → handleScheduleCallback sm query = some
      { sm := sm
        calls := [.AnswerCallback query.ID, .EditMessage query.ChatID query.MessageID
          "расписание не инициализировано. используйте /send_schedule для создания нового"]
        returned := .ofBot }) ∧
    (∃ o : Outcome, handleScheduleCallback sm query = some o ∧
      (sm.current = none → o.sm = sm) ∧
      ((∃ cur, sm.current = some cur) → ∃ cur, o.sm.current = some cur)) := by
  have hnone : sm.current = none → handleScheduleCallback sm query = some
      { sm := sm
        calls := [.AnswerCallback query.ID, .EditMessage query.ChatID query.MessageID
          "расписание не инициализировано. используйте /send_schedule для создания нового"]
        returned := .ofBot } := by
    intro h
    simp only [handleScheduleCallback, ScheduleManager.GetCurrentSchedule, h]
  have hops : ∀ (ops : List Op) (sm' : ScheduleManager), (∃ cur, sm'.current = some cur) →
      ∃ cur, (runOps sm' ops).current = some cur := by
    intro ops
    induction ops with
    | nil => exact fun _ h => h
    | cons op ops ih =>
      intro sm' h
      exact ih _ (plan_apply sm' op h)
  refine ⟨?_, ⟨_, rfl⟩, fun op h => plan_apply sm op h, fun ops => hops ops _ ⟨_, rfl⟩,
    hnone, ?_⟩
  · cases h : sm.current <;> simp [ScheduleManager.GetDeleteEventKeyboard, h]
  · cases h : sm.current with
    | none =>
      exact ⟨_, hnone h, fun _ => rfl, fun ⟨_, hc⟩ => (by cases hc)⟩
    | some cur =>
      have h' : ∃ cur, sm.current = some cur := ⟨cur, h⟩
      obtain ⟨o, ho, hsm⟩ := handleScheduleCallback_sm sm query h'
      refine ⟨o, ho, fun hc => (by cases hc), fun _ => ?_⟩
      rcases hsm with e | e | e | ⟨eventID, e⟩ | ⟨eventID, e⟩ | ⟨eventID, field, e⟩ <;> rw [e]
      · exact h'
      · exact plan_apply _ .ClearEditingState (plan_apply sm (.SetApproved true) h')
      · exact plan_apply sm .ClearEditingState h'
      · exact plan_apply sm (.RestoreEvent eventID) h'
      · exact plan_apply sm (.DeleteEvent eventID) h'
      · exact plan_apply sm (.SetEditingEvent eventID field) h'

end admingroup

end mshkbot
